import Mathlib

/-!
Verification of the Minesweeper board engine (`src/main.rs`).

The grid `Vec<Vec<CellState>>` is embedded as a total function
`Nat → Nat → CellState` together with the fixed `width`/`height` fields of
the board; `grid[row][col]` becomes `grid row col` and in-place assignment
becomes the pointwise update `setCell`.  The `HashSet<(usize, usize)>`
visited set of the flood fill becomes a `Finset (Nat × Nat)`; the `&mut`
threading of the set and of the board through the recursion becomes explicit
state passing, and the recursion is justified by the measure
`width*height - |in-bounds visited cells|`, exactly the argument that bounds
the Rust recursion.  Randomness (`select_random_coords`) is abstracted by
passing the selected list of distinct coordinates to `Board.new` as a
parameter; as in the source the list entries are `(col, row)` pairs.
-/

/-- `CellState` from the source: `Mine(revealed, flagged)` or
`Neighbours(revealed, adjacent_mine_count)`.  The `u8` count is embedded as
`Nat`; it only ever takes values `0..=8`, so `u8` overflow cannot occur. -/
inductive CellState where
  | Mine : Bool → Bool → CellState
  | Neighbours : Bool → Nat → CellState
deriving DecidableEq, Repr

/-- The eight compass directions from the source. -/
inductive Direction where
  | N | E | S | W | NE | SE | SW | NW
deriving DecidableEq, Repr

/-- `ALL_DIRECTIONS`, in source order. -/
def ALL_DIRECTIONS : List Direction :=
  [Direction.N, Direction.E, Direction.S, Direction.W,
   Direction.NE, Direction.SE, Direction.SW, Direction.NW]

/-- `Direction::offset`: partial move on `(row, col)`; `None` when the move
would underflow `usize` (the source guards `row > 0` / `col > 0`). -/
def Direction.offset (d : Direction) (p : Nat × Nat) : Option (Nat × Nat) :=
  match d, p with
  | Direction.N, (row, col) => if row > 0 then some (row - 1, col) else none
  | Direction.E, (row, col) => some (row, col + 1)
  | Direction.S, (row, col) => some (row + 1, col)
  | Direction.W, (row, col) => if col > 0 then some (row, col - 1) else none
  | Direction.NE, (row, col) => if row > 0 then some (row - 1, col + 1) else none
  | Direction.SE, (row, col) => some (row + 1, col + 1)
  | Direction.SW, (row, col) => if col > 0 then some (row + 1, col - 1) else none
  | Direction.NW, (row, col) => if row > 0 ∧ col > 0 then some (row - 1, col - 1) else none

/-- `in_bounds(width, height, (row, col))` from the source:
`row < height && col < width`. -/
def in_bounds (width height : Nat) (p : Nat × Nat) : Bool :=
  decide (p.1 < height) && decide (p.2 < width)

/-- The grid of cells, indexed `grid row col` (the source's `grid[row][col]`). -/
abbrev Grid := Nat → Nat → CellState

/-- Pointwise update of the grid: `grid[row][col] = v`. -/
def setCell (g : Grid) (row col : Nat) (v : CellState) : Grid :=
  fun r c => if r = row ∧ c = col then v else g r c

/-- The `Board` struct.  `width`/`height` are carried explicitly (the source
recomputes them from the vector lengths; they are fixed at construction). -/
@[ext]
structure Board where
  width : Nat
  height : Nat
  grid : Grid
  game_over : Bool

/-- The initial grid of `Board::new`: every cell `Neighbours(false, 0)`. -/
def initGrid : Grid := fun _ _ => CellState.Neighbours false 0

/-- One step of the neighbour-increment loop of `Board::new`: if offsetting
the mine at `(row, col)` by `d` lands in bounds on a `Neighbours` cell,
increment its count. -/
def incrementStep (width height row col : Nat) (acc : Grid) (d : Direction) : Grid :=
  match d.offset (row, col) with
  | some offs =>
      if in_bounds width height offs = true then
        match acc offs.1 offs.2 with
        | CellState.Neighbours rv value =>
            setCell acc offs.1 offs.2 (CellState.Neighbours rv (value + 1))
        | _ => acc
      else acc
  | none => acc

/-- The inner loop of `Board::new`: for each direction, if the offset from
the mine at `(row, col)` exists and is in bounds and holds a `Neighbours`
cell, increment its count. -/
def incrementNeighbours (width height : Nat) (g : Grid) (row col : Nat) : Grid :=
  ALL_DIRECTIONS.foldl (incrementStep width height row col) g

/-- One iteration of the mine-placement loop of `Board::new`: the selected
coordinate is a `(col, row)` pair (as pushed by the source); the cell becomes
a mine and its neighbours are incremented. -/
def placeMine (width height : Nat) (g : Grid) (coord : Nat × Nat) : Grid :=
  incrementNeighbours width height
    (setCell g coord.2 coord.1 (CellState.Mine false false)) coord.2 coord.1

/-- `Board::new`.  The outcome of `select_random_coords` — the `mines`
distinct `(col, row)` pairs chosen at random — is passed in as `mineCoords`;
everything after the random selection is modelled exactly: each chosen cell
becomes `Mine(false, false)` and its in-bounds `Neighbours` cells are
incremented, in list order. -/
def Board.new (width height : Nat) (mineCoords : List (Nat × Nat)) : Board :=
  { width := width
    height := height
    grid := mineCoords.foldl (placeMine width height) initGrid
    game_over := false }

/-- `Board::get_cell_state`. -/
def Board.get_cell_state (b : Board) (row col : Nat) : Option CellState :=
  if in_bounds b.width b.height (row, col) = true then some (b.grid row col) else none

/-- `Board::flag_cell`: toggles the flag of an in-bounds unrevealed mine;
otherwise does nothing. -/
def Board.flag_cell (b : Board) (row col : Nat) : Board :=
  if in_bounds b.width b.height (row, col) = true then
    match b.grid row col with
    | CellState.Mine false false =>
        { b with grid := setCell b.grid row col (CellState.Mine false true) }
    | CellState.Mine false true =>
        { b with grid := setCell b.grid row col (CellState.Mine false false) }
    | _ => b
  else b

/-- The termination measure for the flood fill: the number of in-bounds
coordinates not yet in the visited set.  Each recursive call inserts a new
in-bounds coordinate, so the measure strictly decreases. -/
def dfsMeasure (width height : Nat) (s : Finset (Nat × Nat)) : Nat :=
  width * height - (s.filter (fun p => in_bounds width height p = true)).card

mutual

/-- `Board::reveal_cell_dfs`.  Returns the new grid and the new visited set
(with the proof that the set only grows, which also drives termination).
Branches in source order: out of bounds, already visited, already-revealed
clue, numbered clue (reveal, stop), zero clue (reveal, recurse in all eight
directions), mine (untouched). -/
def reveal_cell_dfs (width height : Nat) (g : Grid) (row col : Nat)
    (closed : Finset (Nat × Nat)) :
    Grid × {s : Finset (Nat × Nat) // closed ⊆ s} :=
  if hb : in_bounds width height (row, col) = true then
    if hc : (row, col) ∈ closed then
      (g, ⟨closed, Finset.Subset.refl closed⟩)
    else
      match g row col with
      | CellState.Neighbours true _ =>
          (g, ⟨insert (row, col) closed, Finset.subset_insert _ _⟩)
      | CellState.Neighbours false count =>
          if 0 < count then
            (setCell g row col (CellState.Neighbours true count),
             ⟨insert (row, col) closed, Finset.subset_insert _ _⟩)
          else
            let res := dfs_directions width height
              (setCell g row col (CellState.Neighbours true 0)) row col
              ALL_DIRECTIONS (insert (row, col) closed)
            (res.1, ⟨res.2.1,
              Finset.Subset.trans (Finset.subset_insert _ _) res.2.2⟩)
      | CellState.Mine _ _ =>
          (g, ⟨insert (row, col) closed, Finset.subset_insert _ _⟩)
  else (g, ⟨closed, Finset.Subset.refl closed⟩)
termination_by dfsMeasure width height closed * 10
decreasing_by
  have h2 : ((insert (row, col) closed).filter
      (fun p => in_bounds width height p = true)).card
      = (closed.filter (fun p => in_bounds width height p = true)).card + 1 := by
    rw [Finset.filter_insert, if_pos hb, Finset.card_insert_of_not_mem]
    intro hmem
    exact hc (Finset.mem_filter.1 hmem).1
  have h3 : ((insert (row, col) closed).filter
      (fun p => in_bounds width height p = true)).card ≤ width * height := by
    have hsub : (insert (row, col) closed).filter
        (fun p => in_bounds width height p = true)
        ⊆ Finset.range height ×ˢ Finset.range width := by
      intro q hq
      have hq2 := (Finset.mem_filter.1 hq).2
      have : q.1 < height ∧ q.2 < width := by
        simpa [in_bounds] using hq2
      simp only [Finset.mem_product, Finset.mem_range]
      exact this
    have := Finset.card_le_card hsub
    simpa [Finset.card_product, Nat.mul_comm] using this
  simp only [dfsMeasure, ALL_DIRECTIONS, List.length]
  omega

/-- The direction loop of `Board::reveal_cell_dfs`: recurse into each
existing offset in turn, threading grid and visited set. -/
def dfs_directions (width height : Nat) (g : Grid) (row col : Nat)
    (dirs : List Direction) (closed : Finset (Nat × Nat)) :
    Grid × {s : Finset (Nat × Nat) // closed ⊆ s} :=
  match dirs with
  | [] => (g, ⟨closed, Finset.Subset.refl closed⟩)
  | d :: rest =>
      match d.offset (row, col) with
      | some (oRow, oCol) =>
          match reveal_cell_dfs width height g oRow oCol closed with
          | (g1, ⟨s1, hs1⟩) =>
              match dfs_directions width height g1 row col rest s1 with
              | (g2, ⟨s2, hs2⟩) => (g2, ⟨s2, Finset.Subset.trans hs1 hs2⟩)
      | none => dfs_directions width height g row col rest closed
termination_by dfsMeasure width height closed * 10 + dirs.length + 1
decreasing_by
  · simp only [List.length_cons]
    omega
  · have hmono : (closed.filter (fun p => in_bounds width height p = true)).card
        ≤ (s1.filter (fun p => in_bounds width height p = true)).card :=
      Finset.card_le_card (Finset.filter_subset_filter _ hs1)
    simp only [dfsMeasure, List.length_cons]
    omega
  · simp only [List.length_cons]
    omega

end

/-- `Board::reveal_cell`.  Branches in source order: game already over;
out of bounds; unrevealed unflagged mine (reveal it, set `game_over`);
unrevealed flagged mine (no-op); anything else (flood fill with a fresh
visited set). -/
def Board.reveal_cell (b : Board) (row col : Nat) : Board :=
  if b.game_over then b
  else if in_bounds b.width b.height (row, col) = true then
    match b.grid row col with
    | CellState.Mine false false =>
        { b with grid := setCell b.grid row col (CellState.Mine true false)
                 game_over := true }
    | CellState.Mine false true => b
    | _ =>
        { b with grid := (reveal_cell_dfs b.width b.height b.grid row col ∅).1 }
  else b

/-- `impl fmt::Display for CellState`, arm by arm: `"X"` for
`Mine(true, false)`, `"!"` for `Mine(false, true)`, the decimal count for
`Neighbours(true, count)`, a space otherwise. -/
def CellState.display : CellState → String
  | CellState.Mine true false => "X"
  | CellState.Mine false true => "!"
  | CellState.Neighbours true count => toString count
  | _ => " "

/-- `impl fmt::Display for Board`: a dashed header line, then for each row
the cells as `"| c "` followed by `"|\n-"` and a dashed line. -/
def Board.displayString (b : Board) : String :=
  String.join ((List.range b.width).map (fun _ => "----")) ++ "-\n" ++
  String.join ((List.range b.height).map (fun row =>
    String.join ((List.range b.width).map (fun col =>
      "| " ++ (b.grid row col).display ++ " ")) ++ "|\n-" ++
    String.join ((List.range b.width).map (fun _ => "----")) ++ "\n"))

/-- A player action: the two mutating entry points of the board. -/
inductive GameAction where
  | reveal : Nat → Nat → GameAction
  | flag : Nat → Nat → GameAction

/-- Apply one action to the board. -/
def applyAction (b : Board) : GameAction → Board
  | GameAction.reveal row col => b.reveal_cell row col
  | GameAction.flag row col => b.flag_cell row col

/-- Apply a sequence of actions from left to right. -/
def applyActions (b : Board) (l : List GameAction) : Board := l.foldl applyAction b

/-- Boards reachable from a freshly constructed board: `Board::new` with any
valid random selection (distinct in-range `(col, row)` pairs), closed under
`reveal_cell` and `flag_cell`. -/
inductive Reachable : Board → Prop where
  | new : ∀ (width height : Nat) (mineCoords : List (Nat × Nat)),
      0 < width → 0 < height → mineCoords.Nodup →
      (∀ p ∈ mineCoords, p.1 < width ∧ p.2 < height) →
      Reachable (Board.new width height mineCoords)
  | reveal : ∀ (b : Board) (row col : Nat), Reachable b → Reachable (b.reveal_cell row col)
  | flag : ∀ (b : Board) (row col : Nat), Reachable b → Reachable (b.flag_cell row col)

/-- Is the cell a mine cell? -/
def isMineCell : CellState → Bool
  | CellState.Mine _ _ => true
  | _ => false

/-- The `revealed` field of a cell. -/
def revealedOf : CellState → Bool
  | CellState.Mine r _ => r
  | CellState.Neighbours r _ => r

/-- The `flagged` field of a cell (clue cells carry no flag). -/
def flagOf : CellState → Bool
  | CellState.Mine _ f => f
  | _ => false

/-- The `adjacent_mine_count` of a clue cell (mines carry no count). -/
def countOf : CellState → Nat
  | CellState.Neighbours _ k => k
  | _ => 0

/-- The cell with its `revealed` field set to `true` and all else unchanged
(on clue cells; mines are returned unchanged). -/
def revealOne : CellState → CellState
  | CellState.Neighbours _ k => CellState.Neighbours true k
  | c => c

/-- 8-adjacency as the source computes it: `q` is one of the existing
direction offsets of `p`. -/
def adjDir (p q : Nat × Nat) : Prop := ∃ d : Direction, d.offset p = some q

/-- Executable 8-adjacency. -/
def adjB (p q : Nat × Nat) : Bool :=
  ALL_DIRECTIONS.any (fun d => decide (d.offset p = some q))

/-- An in-bounds, unrevealed zero-count clue cell of grid `g`. -/
def ZCell (width height : Nat) (g : Grid) (q : Nat × Nat) : Prop :=
  in_bounds width height q = true ∧ g q.1 q.2 = CellState.Neighbours false 0

/-- The connected component (8-adjacency) of unrevealed zero-count clue
cells reached from `p`. -/
def zeroReach (width height : Nat) (g : Grid) (p q : Nat × Nat) : Prop :=
  Relation.ReflTransGen
    (fun x y => ZCell width height g x ∧ adjDir x y ∧ ZCell width height g y) p q

/-- An in-bounds zero-count clue cell of board `b`, revealed or not: the
"zero-count region" cells of the specification. -/
def zeroCellAny (b : Board) (q : Nat × Nat) : Prop :=
  in_bounds b.width b.height q = true ∧ ∃ rv, b.grid q.1 q.2 = CellState.Neighbours rv 0

/-- The connected zero-count region of board `b` containing `p` (revealed
status ignored), as the specification describes it. -/
def zeroRegion (b : Board) (p q : Nat × Nat) : Prop :=
  Relation.ReflTransGen
    (fun x y => zeroCellAny b x ∧ adjDir x y ∧ zeroCellAny b y) p q

/-- The region together with its clue border: the cells the claim says a
zero reveal sets to revealed. -/
def regionBorder (b : Board) (seed q : Nat × Nat) : Prop :=
  zeroRegion b seed q ∨
    (in_bounds b.width b.height q = true ∧
     (∃ rv k, b.grid q.1 q.2 = CellState.Neighbours rv k) ∧
     ∃ z, zeroRegion b seed z ∧ adjDir z q)

/-- Grid invariant threaded through the flood fill: relative to the original
grid `g0`, the current grid differs only at visited in-bounds clue cells, and
there only by `revealed` having become `true`. -/
def GInv (width height : Nat) (g0 g : Grid) (s : Finset (Nat × Nat)) : Prop :=
  ∀ r c, g r c = g0 r c ∨
    ((r, c) ∈ s ∧ in_bounds width height (r, c) = true ∧
     ∃ k, g0 r c = CellState.Neighbours false k ∧ g r c = CellState.Neighbours true k)

/-- Reachability invariant used for the flood-fill claim: every revealed
zero-count clue cell has all of its in-bounds clue neighbours revealed (a
zero region, once revealed, is revealed together with its border). -/
def InvR (b : Board) : Prop :=
  ∀ r c, in_bounds b.width b.height (r, c) = true →
    b.grid r c = CellState.Neighbours true 0 →
    ∀ q, adjDir (r, c) q → in_bounds b.width b.height q = true →
      ∀ rv k, b.grid q.1 q.2 = CellState.Neighbours rv k → rv = true

/-- The number of mines in `coords` (a list of `(col, row)` pairs) adjacent
to the in-bounds cell `(row, col)`: the count `Board::new` accumulates. -/
def countAdj (width height : Nat) (coords : List (Nat × Nat)) (row col : Nat) : Nat :=
  (coords.filter (fun p =>
    adjB (p.2, p.1) (row, col) && in_bounds width height (row, col))).length

/-- The specification's brute-force recount: the number of in-bounds
8-neighbours (N, S, E, W and the four diagonals) of `(row, col)` that are
mine cells of board `b`. -/
def specAdjMineCount (b : Board) (row col : Nat) : Nat :=
  (ALL_DIRECTIONS.filter (fun d =>
    match d.offset (row, col) with
    | some q => in_bounds b.width b.height q && isMineCell (b.grid q.1 q.2)
    | none => false)).length

/-- The number of mine cells of the board (over the in-bounds coordinates). -/
def mineCount (b : Board) : Nat :=
  ((Finset.range b.height ×ˢ Finset.range b.width).filter
    (fun q => isMineCell (b.grid q.1 q.2) = true)).card

/-- The number of clue cells of the board (over the in-bounds coordinates). -/
def clueCount (b : Board) : Nat :=
  ((Finset.range b.height ×ˢ Finset.range b.width).filter
    (fun q => isMineCell (b.grid q.1 q.2) = false)).card

/-- Common post-conditions of a flood-fill call, relative to the original
grid `g0` and seed: the grid invariant holds for the outputs; revealed clue
cells stay revealed; every change lies in the zero region of the seed or
adjacent to it; and every newly visited cell that is an unrevealed clue of
`g0` has been revealed (and, if its count is zero, all its in-bounds
neighbours have been visited). -/
def DfsCore (width height : Nat) (g0 : Grid) (seed : Nat × Nat) (g : Grid)
    (closed : Finset (Nat × Nat)) (outG : Grid) (outS : Finset (Nat × Nat)) : Prop :=
  GInv width height g0 outG outS ∧
  (∀ r c k, g r c = CellState.Neighbours true k → outG r c = CellState.Neighbours true k) ∧
  (∀ r c, outG r c ≠ g r c →
      zeroReach width height g0 seed (r, c) ∨
        ∃ z, zeroReach width height g0 seed z ∧ adjDir z (r, c)) ∧
  (∀ qr qc, (qr, qc) ∈ outS → (qr, qc) ∉ closed →
      ∀ k, g0 qr qc = CellState.Neighbours false k →
      outG qr qc = CellState.Neighbours true k ∧
      (k = 0 → ∀ q2, adjDir (qr, qc) q2 →
        in_bounds width height q2 = true → q2 ∈ outS))

/-- Post-condition of `reveal_cell_dfs`: the common one, plus: an in-bounds
target ends up visited. -/
def DfsOut (width height : Nat) (g0 : Grid) (seed : Nat × Nat) (g : Grid)
    (closed : Finset (Nat × Nat)) (row col : Nat) (outG : Grid)
    (outS : Finset (Nat × Nat)) : Prop :=
  DfsCore width height g0 seed g closed outG outS ∧
  (in_bounds width height (row, col) = true → (row, col) ∈ outS)

/-- Post-condition of `dfs_directions`: the common one, plus: every in-bounds
offset of the current cell along one of `dirs` ends up visited. -/
def DirsOut (width height : Nat) (g0 : Grid) (seed : Nat × Nat) (g : Grid)
    (closed : Finset (Nat × Nat)) (row col : Nat) (dirs : List Direction)
    (outG : Grid) (outS : Finset (Nat × Nat)) : Prop :=
  DfsCore width height g0 seed g closed outG outS ∧
  (∀ d ∈ dirs, ∀ q2, d.offset (row, col) = some q2 →
      in_bounds width height q2 = true → q2 ∈ outS)

/-! ## Basic lemmas -/

theorem in_bounds_iff {width height : Nat} {p : Nat × Nat} :
    in_bounds width height p = true ↔ p.1 < height ∧ p.2 < width := by
  simp [in_bounds]

theorem setCell_same (g : Grid) (row col : Nat) (v : CellState) :
    setCell g row col v row col = v := by
  simp [setCell]

theorem setCell_ne (g : Grid) (row col : Nat) (v : CellState) (r c : Nat)
    (h : ¬(r = row ∧ c = col)) : setCell g row col v r c = g r c := by
  simp [setCell, h]

theorem mem_ALL_DIRECTIONS (d : Direction) : d ∈ ALL_DIRECTIONS := by
  cases d <;> simp [ALL_DIRECTIONS]

theorem ALL_DIRECTIONS_nodup : ALL_DIRECTIONS.Nodup := by decide

theorem adjB_iff {p q : Nat × Nat} : adjB p q = true ↔ adjDir p q := by
  simp only [adjB, adjDir, List.any_eq_true, decide_eq_true_eq]
  constructor
  · rintro ⟨d, _, hd⟩
    exact ⟨d, hd⟩
  · rintro ⟨d, hd⟩
    exact ⟨d, mem_ALL_DIRECTIONS d, hd⟩

theorem offset_ne_self {d : Direction} {p q : Nat × Nat}
    (h : d.offset p = some q) : q ≠ p := by
  obtain ⟨pr, pc⟩ := p
  obtain ⟨qr, qc⟩ := q
  cases d <;> rcases pr with _ | pr <;> rcases pc with _ | pc <;>
    simp [Direction.offset, -Prod.mk_one_one, -Prod.mk_zero_zero] at h <;> intro heq <;>
    rw [Prod.mk.injEq] at heq <;> omega

theorem offset_inj {d1 d2 : Direction} {p q : Nat × Nat}
    (h1 : d1.offset p = some q) (h2 : d2.offset p = some q) : d1 = d2 := by
  obtain ⟨pr, pc⟩ := p
  obtain ⟨qr, qc⟩ := q
  cases d1 <;> cases d2 <;> rcases pr with _ | pr <;> rcases pc with _ | pc <;>
    simp [Direction.offset, -Prod.mk_one_one, -Prod.mk_zero_zero] at h1 h2 <;>
    first | rfl | (exfalso; omega)

theorem offset_symm {d : Direction} {p q : Nat × Nat}
    (h : d.offset p = some q) : ∃ d2 : Direction, d2.offset q = some p := by
  obtain ⟨pr, pc⟩ := p
  obtain ⟨qr, qc⟩ := q
  cases d
  case N =>
    rcases pr with _ | pr <;> simp [Direction.offset] at h
    obtain ⟨h1, h2⟩ := h
    subst h1; subst h2
    exact ⟨Direction.S, by simp [Direction.offset]⟩
  case E =>
    simp [Direction.offset] at h
    obtain ⟨h1, h2⟩ := h
    subst h1; subst h2
    exact ⟨Direction.W, by simp [Direction.offset]⟩
  case S =>
    simp [Direction.offset] at h
    obtain ⟨h1, h2⟩ := h
    subst h1; subst h2
    exact ⟨Direction.N, by simp [Direction.offset]⟩
  case W =>
    rcases pc with _ | pc <;> simp [Direction.offset] at h
    obtain ⟨h1, h2⟩ := h
    subst h1; subst h2
    exact ⟨Direction.E, by simp [Direction.offset]⟩
  case NE =>
    rcases pr with _ | pr <;> simp [Direction.offset] at h
    obtain ⟨h1, h2⟩ := h
    subst h1; subst h2
    exact ⟨Direction.SW, by simp [Direction.offset]⟩
  case SE =>
    simp [Direction.offset] at h
    obtain ⟨h1, h2⟩ := h
    subst h1; subst h2
    exact ⟨Direction.NW, by simp [Direction.offset]⟩
  case SW =>
    rcases pc with _ | pc <;> simp [Direction.offset] at h
    obtain ⟨h1, h2⟩ := h
    subst h1; subst h2
    exact ⟨Direction.NE, by simp [Direction.offset]⟩
  case NW =>
    rcases pr with _ | pr <;> rcases pc with _ | pc <;> simp [Direction.offset] at h
    obtain ⟨h1, h2⟩ := h
    subst h1; subst h2
    exact ⟨Direction.SE, by simp [Direction.offset]⟩

theorem adjDir_symm {p q : Nat × Nat} (h : adjDir p q) : adjDir q p := by
  obtain ⟨d, hd⟩ := h
  exact offset_symm hd

/-! ## Unfolding lemmas for the flood fill -/

theorem dfs_eq_oob {width height : Nat} {g : Grid} {row col : Nat}
    {closed : Finset (Nat × Nat)}
    (hb : ¬ in_bounds width height (row, col) = true) :
    reveal_cell_dfs width height g row col closed
      = (g, ⟨closed, Finset.Subset.refl closed⟩) := by
  rw [reveal_cell_dfs]
  simp [hb]

theorem dfs_eq_closed {width height : Nat} {g : Grid} {row col : Nat}
    {closed : Finset (Nat × Nat)}
    (hb : in_bounds width height (row, col) = true) (hc : (row, col) ∈ closed) :
    reveal_cell_dfs width height g row col closed
      = (g, ⟨closed, Finset.Subset.refl closed⟩) := by
  rw [reveal_cell_dfs]
  simp [hb, hc]

theorem dfs_eq_revealed {width height : Nat} {g : Grid} {row col : Nat}
    {closed : Finset (Nat × Nat)} {k : Nat}
    (hb : in_bounds width height (row, col) = true) (hc : (row, col) ∉ closed)
    (hcell : g row col = CellState.Neighbours true k) :
    reveal_cell_dfs width height g row col closed
      = (g, ⟨insert (row, col) closed, Finset.subset_insert _ _⟩) := by
  rw [reveal_cell_dfs]
  simp [hb, hc, hcell]

theorem dfs_eq_mine {width height : Nat} {g : Grid} {row col : Nat}
    {closed : Finset (Nat × Nat)} {a f : Bool}
    (hb : in_bounds width height (row, col) = true) (hc : (row, col) ∉ closed)
    (hcell : g row col = CellState.Mine a f) :
    reveal_cell_dfs width height g row col closed
      = (g, ⟨insert (row, col) closed, Finset.subset_insert _ _⟩) := by
  rw [reveal_cell_dfs]
  simp [hb, hc, hcell]

theorem dfs_eq_numbered {width height : Nat} {g : Grid} {row col : Nat}
    {closed : Finset (Nat × Nat)} {k : Nat}
    (hb : in_bounds width height (row, col) = true) (hc : (row, col) ∉ closed)
    (hcell : g row col = CellState.Neighbours false k) (hk : 0 < k) :
    reveal_cell_dfs width height g row col closed
      = (setCell g row col (CellState.Neighbours true k),
         ⟨insert (row, col) closed, Finset.subset_insert _ _⟩) := by
  rw [reveal_cell_dfs]
  simp [hb, hc, hcell, hk]

theorem dfs_eq_zero_fst {width height : Nat} {g : Grid} {row col : Nat}
    {closed : Finset (Nat × Nat)}
    (hb : in_bounds width height (row, col) = true) (hc : (row, col) ∉ closed)
    (hcell : g row col = CellState.Neighbours false 0) :
    (reveal_cell_dfs width height g row col closed).1
      = (dfs_directions width height
          (setCell g row col (CellState.Neighbours true 0)) row col
          ALL_DIRECTIONS (insert (row, col) closed)).1 := by
  rw [reveal_cell_dfs]
  simp [hb, hc, hcell]

theorem dfs_eq_zero_snd {width height : Nat} {g : Grid} {row col : Nat}
    {closed : Finset (Nat × Nat)}
    (hb : in_bounds width height (row, col) = true) (hc : (row, col) ∉ closed)
    (hcell : g row col = CellState.Neighbours false 0) :
    (reveal_cell_dfs width height g row col closed).2.1
      = (dfs_directions width height
          (setCell g row col (CellState.Neighbours true 0)) row col
          ALL_DIRECTIONS (insert (row, col) closed)).2.1 := by
  rw [reveal_cell_dfs]
  simp [hb, hc, hcell]

theorem dirs_eq_nil {width height : Nat} {g : Grid} {row col : Nat}
    {closed : Finset (Nat × Nat)} :
    dfs_directions width height g row col [] closed
      = (g, ⟨closed, Finset.Subset.refl closed⟩) := by
  rw [dfs_directions]

theorem dirs_eq_cons_none {width height : Nat} {g : Grid} {row col : Nat}
    {closed : Finset (Nat × Nat)} {d : Direction} {rest : List Direction}
    (hoff : d.offset (row, col) = none) :
    dfs_directions width height g row col (d :: rest) closed
      = dfs_directions width height g row col rest closed := by
  rw [dfs_directions]
  simp [hoff]

theorem dirs_eq_cons_some_fst {width height : Nat} {g : Grid} {row col : Nat}
    {closed : Finset (Nat × Nat)} {d : Direction} {rest : List Direction}
    {oRow oCol : Nat} (hoff : d.offset (row, col) = some (oRow, oCol)) :
    (dfs_directions width height g row col (d :: rest) closed).1
      = (dfs_directions width height
          (reveal_cell_dfs width height g oRow oCol closed).1 row col rest
          (reveal_cell_dfs width height g oRow oCol closed).2.1).1 := by
  rw [dfs_directions]
  simp [hoff]

theorem dirs_eq_cons_some_snd {width height : Nat} {g : Grid} {row col : Nat}
    {closed : Finset (Nat × Nat)} {d : Direction} {rest : List Direction}
    {oRow oCol : Nat} (hoff : d.offset (row, col) = some (oRow, oCol)) :
    (dfs_directions width height g row col (d :: rest) closed).2.1
      = (dfs_directions width height
          (reveal_cell_dfs width height g oRow oCol closed).1 row col rest
          (reveal_cell_dfs width height g oRow oCol closed).2.1).2.1 := by
  rw [dfs_directions]
  simp [hoff]

/-! ## Grid invariant and measure lemmas -/

theorem GInv_eq_of_not_mem {width height : Nat} {g0 g : Grid}
    {s : Finset (Nat × Nat)} (h : GInv width height g0 g s) {r c : Nat}
    (hp : (r, c) ∉ s) : g r c = g0 r c := by
  rcases h r c with he | ⟨hm, _⟩
  · exact he
  · exact absurd hm hp

theorem GInv_mono {width height : Nat} {g0 g : Grid} {s t : Finset (Nat × Nat)}
    (h : GInv width height g0 g s) (hst : s ⊆ t) : GInv width height g0 g t := by
  intro r c
  rcases h r c with he | ⟨hm, hrest⟩
  · exact Or.inl he
  · exact Or.inr ⟨hst hm, hrest⟩

theorem dfsMeasure_mono {width height : Nat} {s t : Finset (Nat × Nat)}
    (hst : s ⊆ t) : dfsMeasure width height t ≤ dfsMeasure width height s :=
  Nat.sub_le_sub_left (Finset.card_le_card (Finset.filter_subset_filter _ hst)) _

theorem filter_in_bounds_card_le {width height : Nat} (s : Finset (Nat × Nat)) :
    (s.filter (fun p => in_bounds width height p = true)).card ≤ width * height := by
  have hsub : s.filter (fun p => in_bounds width height p = true)
      ⊆ Finset.range height ×ˢ Finset.range width := by
    intro q hq
    have hq2 := (Finset.mem_filter.1 hq).2
    have : q.1 < height ∧ q.2 < width := by simpa [in_bounds] using hq2
    simp only [Finset.mem_product, Finset.mem_range]
    exact this
  have := Finset.card_le_card hsub
  simpa [Finset.card_product, Nat.mul_comm] using this

theorem dfsMeasure_insert_lt {width height : Nat} {s : Finset (Nat × Nat)}
    {p : Nat × Nat} (hb : in_bounds width height p = true) (hp : p ∉ s) :
    dfsMeasure width height (insert p s) < dfsMeasure width height s := by
  have h2 : ((insert p s).filter (fun q => in_bounds width height q = true)).card
      = (s.filter (fun q => in_bounds width height q = true)).card + 1 := by
    rw [Finset.filter_insert, if_pos hb, Finset.card_insert_of_not_mem]
    intro hmem
    exact hp (Finset.mem_filter.1 hmem).1
  have h3 := @filter_in_bounds_card_le width height (insert p s)
  simp only [dfsMeasure]
  omega

theorem zeroReach_ZCell {width height : Nat} {g0 : Grid} {seed q : Nat × Nat}
    (hseedZ : ZCell width height g0 seed)
    (h : zeroReach width height g0 seed q) : ZCell width height g0 q := by
  induction h with
  | refl => exact hseedZ
  | tail _ step _ => exact step.2.2

theorem DfsCore_refl {width height : Nat} {g0 : Grid} {seed : Nat × Nat}
    {g : Grid} {closed : Finset (Nat × Nat)}
    (hGInv : GInv width height g0 g closed) :
    DfsCore width height g0 seed g closed g closed := by
  refine ⟨hGInv, ?_, ?_, ?_⟩
  · intro r c k hk
    exact hk
  · intro r c hne
    exact absurd rfl hne
  · intro qr qc hq hqn k hg0
    exact absurd hq hqn

theorem DfsCore_insert_skip {width height : Nat} {g0 : Grid} {seed : Nat × Nat}
    {g : Grid} {closed : Finset (Nat × Nat)} {row col : Nat}
    (hGInv : GInv width height g0 g closed)
    (hnz : ∀ k, g0 row col ≠ CellState.Neighbours false k) :
    DfsCore width height g0 seed g closed g (insert (row, col) closed) := by
  refine ⟨GInv_mono hGInv (Finset.subset_insert _ _), ?_, ?_, ?_⟩
  · intro r c k hk
    exact hk
  · intro r c hne
    exact absurd rfl hne
  · intro qr qc hq hqn k hg0
    rcases Finset.mem_insert.1 hq with heq | hmem
    · rw [Prod.mk.injEq] at heq
      obtain ⟨rfl, rfl⟩ := heq
      exact absurd hg0 (hnz k)
    · exact absurd hmem hqn

theorem DfsCore_numbered {width height : Nat} {g0 : Grid} {seed : Nat × Nat}
    {g : Grid} {closed : Finset (Nat × Nat)} {row col : Nat} {k : Nat}
    (hGInv : GInv width height g0 g closed)
    (hb : in_bounds width height (row, col) = true)
    (hc : (row, col) ∉ closed)
    (hcell : g row col = CellState.Neighbours false k)
    (hT : zeroReach width height g0 seed (row, col) ∨
        ∃ z, zeroReach width height g0 seed z ∧ adjDir z (row, col))
    (hknz : 0 < k) :
    DfsCore width height g0 seed g closed
      (setCell g row col (CellState.Neighbours true k)) (insert (row, col) closed) := by
  have hg0 : g0 row col = CellState.Neighbours false k :=
    (GInv_eq_of_not_mem hGInv hc).symm.trans hcell
  refine ⟨?_, ?_, ?_, ?_⟩
  · intro r c
    by_cases hrc : r = row ∧ c = col
    · obtain ⟨rfl, rfl⟩ := hrc
      exact Or.inr ⟨Finset.mem_insert_self _ _, hb, k, hg0, setCell_same _ _ _ _⟩
    · rw [setCell_ne _ _ _ _ _ _ hrc]
      rcases hGInv r c with he | ⟨hm, hrest⟩
      · exact Or.inl he
      · exact Or.inr ⟨Finset.mem_insert_of_mem hm, hrest⟩
  · intro r c k2 hk2
    have hrc : ¬(r = row ∧ c = col) := by
      rintro ⟨rfl, rfl⟩
      rw [hcell] at hk2
      simp at hk2
    rw [setCell_ne _ _ _ _ _ _ hrc]
    exact hk2
  · intro r c hne
    have hrc : r = row ∧ c = col := by
      by_contra hrc
      exact hne (setCell_ne _ _ _ _ _ _ hrc)
    obtain ⟨rfl, rfl⟩ := hrc
    exact hT
  · intro qr qc hq hqn k2 hg02
    rcases Finset.mem_insert.1 hq with heq | hmem
    · rw [Prod.mk.injEq] at heq
      obtain ⟨rfl, rfl⟩ := heq
      rw [hg0] at hg02
      obtain ⟨-, rfl⟩ := CellState.Neighbours.inj hg02
      refine ⟨setCell_same _ _ _ _, ?_⟩
      intro hk0
      omega
    · exact absurd hmem hqn

theorem dfs_dirs_spec {width height : Nat} {g0 : Grid} {seed : Nat × Nat}
    (hseedZ : ZCell width height g0 seed) (n : Nat)
    (IH : ∀ (g : Grid) (row col : Nat) (closed : Finset (Nat × Nat)),
        dfsMeasure width height closed ≤ n →
        GInv width height g0 g closed →
        (in_bounds width height (row, col) = true →
          zeroReach width height g0 seed (row, col) ∨
            ∃ z, zeroReach width height g0 seed z ∧ adjDir z (row, col)) →
        DfsOut width height g0 seed g closed row col
          (reveal_cell_dfs width height g row col closed).1
          (reveal_cell_dfs width height g row col closed).2.1) :
    ∀ (dirs : List Direction) (g : Grid) (row col : Nat)
      (closed : Finset (Nat × Nat)),
      dfsMeasure width height closed ≤ n →
      GInv width height g0 g closed →
      zeroReach width height g0 seed (row, col) →
      DirsOut width height g0 seed g closed row col dirs
        (dfs_directions width height g row col dirs closed).1
        (dfs_directions width height g row col dirs closed).2.1 := by
  intro dirs
  induction dirs with
  | nil =>
    intro g row col closed hm hGInv hreach
    rw [dirs_eq_nil]
    refine ⟨DfsCore_refl hGInv, ?_⟩
    intro d hd
    simp at hd
  | cons d rest ihrest =>
    intro g row col closed hm hGInv hreach
    rcases hoff : d.offset (row, col) with _ | ⟨oRow, oCol⟩
    · rw [dirs_eq_cons_none hoff]
      obtain ⟨hcore, hL⟩ := ihrest g row col closed hm hGInv hreach
      refine ⟨hcore, ?_⟩
      intro d2 hd2 q2 hoff2 hin2
      rcases List.mem_cons.1 hd2 with rfl | hd2r
      · rw [hoff] at hoff2
        cases hoff2
      · exact hL d2 hd2r q2 hoff2 hin2
    · have hT1 : in_bounds width height (oRow, oCol) = true →
          zeroReach width height g0 seed (oRow, oCol) ∨
            ∃ z, zeroReach width height g0 seed z ∧ adjDir z (oRow, oCol) := by
        intro _
        exact Or.inr ⟨(row, col), hreach, ⟨d, hoff⟩⟩
      obtain ⟨⟨hA1, hC1, hD1, hE1⟩, hB1⟩ := IH g oRow oCol closed hm hGInv hT1
      have hsub1 : closed ⊆ (reveal_cell_dfs width height g oRow oCol closed).2.1 :=
        (reveal_cell_dfs width height g oRow oCol closed).2.2
      have hm1 : dfsMeasure width height
          (reveal_cell_dfs width height g oRow oCol closed).2.1 ≤ n :=
        le_trans (dfsMeasure_mono hsub1) hm
      obtain ⟨⟨hA2, hC2, hD2, hE2⟩, hL2⟩ := ihrest
        (reveal_cell_dfs width height g oRow oCol closed).1 row col
        (reveal_cell_dfs width height g oRow oCol closed).2.1 hm1 hA1 hreach
      have hsub2 : (reveal_cell_dfs width height g oRow oCol closed).2.1 ⊆
          (dfs_directions width height
            (reveal_cell_dfs width height g oRow oCol closed).1 row col rest
            (reveal_cell_dfs width height g oRow oCol closed).2.1).2.1 :=
        (dfs_directions width height
          (reveal_cell_dfs width height g oRow oCol closed).1 row col rest
          (reveal_cell_dfs width height g oRow oCol closed).2.1).2.2
      rw [dirs_eq_cons_some_fst hoff, dirs_eq_cons_some_snd hoff]
      refine ⟨⟨hA2, ?_, ?_, ?_⟩, ?_⟩
      · intro r c k hk
        exact hC2 r c k (hC1 r c k hk)
      · intro r c hne
        by_cases hmid : (dfs_directions width height
            (reveal_cell_dfs width height g oRow oCol closed).1 row col rest
            (reveal_cell_dfs width height g oRow oCol closed).2.1).1 r c
            = (reveal_cell_dfs width height g oRow oCol closed).1 r c
        · apply hD1 r c
          intro hfirst
          exact hne (hmid.trans hfirst)
        · exact hD2 r c hmid
      · intro qr qc hq hqn k hg0k
        by_cases hq1 : (qr, qc) ∈ (reveal_cell_dfs width height g oRow oCol closed).2.1
        · obtain ⟨hrev, hnb⟩ := hE1 qr qc hq1 hqn k hg0k
          refine ⟨hC2 qr qc k hrev, ?_⟩
          intro hk0 q2 hadj hin2
          exact hsub2 (hnb hk0 q2 hadj hin2)
        · exact hE2 qr qc hq hq1 k hg0k
      · intro d2 hd2 q2 hoff2 hin2
        rcases List.mem_cons.1 hd2 with rfl | hd2r
        · rw [hoff] at hoff2
          cases hoff2
          exact hsub2 (hB1 hin2)
        · exact hL2 d2 hd2r q2 hoff2 hin2

theorem dfs_spec {width height : Nat} {g0 : Grid} {seed : Nat × Nat}
    (hseedZ : ZCell width height g0 seed) :
    ∀ (n : Nat) (g : Grid) (row col : Nat) (closed : Finset (Nat × Nat)),
      dfsMeasure width height closed ≤ n →
      GInv width height g0 g closed →
      (in_bounds width height (row, col) = true →
        zeroReach width height g0 seed (row, col) ∨
          ∃ z, zeroReach width height g0 seed z ∧ adjDir z (row, col)) →
      DfsOut width height g0 seed g closed row col
        (reveal_cell_dfs width height g row col closed).1
        (reveal_cell_dfs width height g row col closed).2.1 := by
  intro n
  induction n using Nat.strong_induction_on with
  | _ n IH =>
  intro g row col closed hm hGInv hT
  by_cases hb : in_bounds width height (row, col) = true
  · by_cases hc : (row, col) ∈ closed
    · rw [dfs_eq_closed hb hc]
      exact ⟨DfsCore_refl hGInv, fun _ => hc⟩
    · rcases hcell : g row col with ⟨a, f⟩ | ⟨rv, k⟩
      · rw [dfs_eq_mine hb hc hcell]
        refine ⟨DfsCore_insert_skip hGInv ?_, fun _ => Finset.mem_insert_self _ _⟩
        intro k hk
        rw [← GInv_eq_of_not_mem hGInv hc, hcell] at hk
        simp at hk
      · cases rv
        · by_cases hk : 0 < k
          · rw [dfs_eq_numbered hb hc hcell hk]
            exact ⟨DfsCore_numbered hGInv hb hc hcell (hT hb) hk,
                   fun _ => Finset.mem_insert_self _ _⟩
          · have hk0 : k = 0 := by omega
            subst hk0
            have hg0cell : g0 row col = CellState.Neighbours false 0 :=
              (GInv_eq_of_not_mem hGInv hc).symm.trans hcell
            have hZ : ZCell width height g0 (row, col) := ⟨hb, hg0cell⟩
            have hreach : zeroReach width height g0 seed (row, col) := by
              rcases hT hb with h | ⟨z, hz, hadj⟩
              · exact h
              · exact Relation.ReflTransGen.tail hz ⟨zeroReach_ZCell hseedZ hz, hadj, hZ⟩
            have hGInv1 : GInv width height g0
                (setCell g row col (CellState.Neighbours true 0))
                (insert (row, col) closed) := by
              intro r c
              by_cases hrc : r = row ∧ c = col
              · obtain ⟨rfl, rfl⟩ := hrc
                exact Or.inr ⟨Finset.mem_insert_self _ _, hb, 0, hg0cell,
                  setCell_same _ _ _ _⟩
              · rw [setCell_ne _ _ _ _ _ _ hrc]
                rcases hGInv r c with he | ⟨hmem, hrest⟩
                · exact Or.inl he
                · exact Or.inr ⟨Finset.mem_insert_of_mem hmem, hrest⟩
            have hlt : dfsMeasure width height (insert (row, col) closed)
                < dfsMeasure width height closed := dfsMeasure_insert_lt hb hc
            have hIH2 := IH (dfsMeasure width height (insert (row, col) closed))
              (lt_of_lt_of_le hlt hm)
            obtain ⟨⟨hA2, hC2, hD2, hE2⟩, hL2⟩ := dfs_dirs_spec hseedZ
              (dfsMeasure width height (insert (row, col) closed)) hIH2
              ALL_DIRECTIONS (setCell g row col (CellState.Neighbours true 0)) row col
              (insert (row, col) closed) (le_refl _) hGInv1 hreach
            have hsub2 : insert (row, col) closed ⊆
                (dfs_directions width height
                  (setCell g row col (CellState.Neighbours true 0)) row col
                  ALL_DIRECTIONS (insert (row, col) closed)).2.1 :=
              (dfs_directions width height
                (setCell g row col (CellState.Neighbours true 0)) row col
                ALL_DIRECTIONS (insert (row, col) closed)).2.2
            rw [dfs_eq_zero_fst hb hc hcell, dfs_eq_zero_snd hb hc hcell]
            refine ⟨⟨hA2, ?_, ?_, ?_⟩, ?_⟩
            · intro r c k2 hk2
              have hrc : ¬(r = row ∧ c = col) := by
                rintro ⟨rfl, rfl⟩
                rw [hcell] at hk2
                simp at hk2
              apply hC2 r c k2
              rw [setCell_ne _ _ _ _ _ _ hrc]
              exact hk2
            · intro r c hne
              by_cases hrc : r = row ∧ c = col
              · obtain ⟨rfl, rfl⟩ := hrc
                exact Or.inl hreach
              · apply hD2 r c
                intro hmid
                exact hne (hmid.trans (setCell_ne _ _ _ _ _ _ hrc))
            · intro qr qc hq hqn k2 hg0k
              by_cases hrc : qr = row ∧ qc = col
              · obtain ⟨rfl, rfl⟩ := hrc
                have hout := hC2 qr qc 0 (setCell_same _ _ _ _)
                rw [hg0cell] at hg0k
                obtain ⟨-, rfl⟩ := CellState.Neighbours.inj hg0k
                refine ⟨hout, ?_⟩
                intro _ q2 hadj hin2
                obtain ⟨d, hoffd⟩ := hadj
                exact hL2 d (mem_ALL_DIRECTIONS d) q2 hoffd hin2
              · have hqn1 : (qr, qc) ∉ insert (row, col) closed := by
                  intro hmem
                  rcases Finset.mem_insert.1 hmem with heq | hmem2
                  · rw [Prod.mk.injEq] at heq
                    exact hrc heq
                  · exact hqn hmem2
                exact hE2 qr qc hq hqn1 k2 hg0k
            · intro _
              exact hsub2 (Finset.mem_insert_self _ _)
        · rw [dfs_eq_revealed hb hc hcell]
          refine ⟨DfsCore_insert_skip hGInv ?_, fun _ => Finset.mem_insert_self _ _⟩
          intro k2 hk2
          rw [← GInv_eq_of_not_mem hGInv hc, hcell] at hk2
          simp at hk2
  · rw [dfs_eq_oob hb]
    exact ⟨DfsCore_refl hGInv, fun hbb => absurd hbb hb⟩

/-! ## Unfolding lemmas for reveal, flag and queries -/

theorem not_in_bounds_iff {width height r c : Nat} :
    ¬ (in_bounds width height (r, c) = true) ↔ (height ≤ r ∨ width ≤ c) := by
  simp [in_bounds]
  omega

theorem reveal_eq_game_over {b : Board} {row col : Nat}
    (h : b.game_over = true) : b.reveal_cell row col = b := by
  simp [Board.reveal_cell, h]

theorem reveal_eq_oob {b : Board} {row col : Nat}
    (hb : ¬ in_bounds b.width b.height (row, col) = true) :
    b.reveal_cell row col = b := by
  by_cases hgo : b.game_over <;> simp [Board.reveal_cell, hgo, hb]

theorem reveal_eq_mine_hit {b : Board} {row col : Nat}
    (hgo : b.game_over = false)
    (hb : in_bounds b.width b.height (row, col) = true)
    (hcell : b.grid row col = CellState.Mine false false) :
    b.reveal_cell row col
      = { b with grid := setCell b.grid row col (CellState.Mine true false)
                 game_over := true } := by
  simp [Board.reveal_cell, hgo, hb, hcell]

theorem reveal_eq_mine_flagged {b : Board} {row col : Nat}
    (hgo : b.game_over = false)
    (hb : in_bounds b.width b.height (row, col) = true)
    (hcell : b.grid row col = CellState.Mine false true) :
    b.reveal_cell row col = b := by
  simp [Board.reveal_cell, hgo, hb, hcell]

theorem reveal_eq_dfs {b : Board} {row col : Nat}
    (hgo : b.game_over = false)
    (hb : in_bounds b.width b.height (row, col) = true)
    (hnm : ∀ f, b.grid row col ≠ CellState.Mine false f) :
    b.reveal_cell row col
      = { b with grid := (reveal_cell_dfs b.width b.height b.grid row col ∅).1 } := by
  rcases hcell : b.grid row col with ⟨a, f⟩ | ⟨rv, k⟩
  · cases a
    · exact absurd hcell (hnm f)
    · simp [Board.reveal_cell, hgo, hb, hcell]
  · simp [Board.reveal_cell, hgo, hb, hcell]

theorem flag_eq_oob {b : Board} {row col : Nat}
    (hb : ¬ in_bounds b.width b.height (row, col) = true) :
    b.flag_cell row col = b := by
  simp [Board.flag_cell, hb]

theorem flag_eq_set {b : Board} {row col : Nat} {f : Bool}
    (hb : in_bounds b.width b.height (row, col) = true)
    (hcell : b.grid row col = CellState.Mine false f) :
    b.flag_cell row col
      = { b with grid := setCell b.grid row col (CellState.Mine false (!f)) } := by
  cases f <;> simp [Board.flag_cell, hb, hcell]

theorem flag_eq_noop_clue {b : Board} {row col : Nat} {rv : Bool} {k : Nat}
    (hcell : b.grid row col = CellState.Neighbours rv k) :
    b.flag_cell row col = b := by
  by_cases hb : in_bounds b.width b.height (row, col) = true
  · simp [Board.flag_cell, hb, hcell]
  · simp [Board.flag_cell, hb]

theorem flag_eq_noop_revealed {b : Board} {row col : Nat} {f : Bool}
    (hcell : b.grid row col = CellState.Mine true f) :
    b.flag_cell row col = b := by
  by_cases hb : in_bounds b.width b.height (row, col) = true
  · simp [Board.flag_cell, hb, hcell]
  · simp [Board.flag_cell, hb]

theorem setCell_setCell_cancel {g : Grid} {row col : Nat} {v v' : CellState}
    (hcell : g row col = v) :
    setCell (setCell g row col v') row col v = g := by
  funext r c
  by_cases hrc : r = row ∧ c = col
  · obtain ⟨rfl, rfl⟩ := hrc
    rw [setCell_same, hcell]
  · rw [setCell_ne _ _ _ _ _ _ hrc, setCell_ne _ _ _ _ _ _ hrc]

/-! ## Claims C3, C5, C6, C7 -/

/-- C3: on a board with `game_over = false`, revealing an in-bounds
unrevealed, unflagged mine reveals that mine and sets `game_over`; once
`game_over` is true, any `reveal_cell` call is the identity, and so any
sequence of further reveal calls leaves the board (and `game_over`)
unchanged forever. -/
theorem claim3 :
    (∀ (b : Board) (row col : Nat), b.game_over = false →
        in_bounds b.width b.height (row, col) = true →
        b.grid row col = CellState.Mine false false →
        (b.reveal_cell row col).grid row col = CellState.Mine true false ∧
        (b.reveal_cell row col).game_over = true) ∧
    (∀ (b : Board) (row col : Nat), b.game_over = true →
        b.reveal_cell row col = b) ∧
    (∀ (b : Board) (l : List (Nat × Nat)), b.game_over = true →
        List.foldl (fun acc p => acc.reveal_cell p.1 p.2) b l = b ∧
        (List.foldl (fun acc p => acc.reveal_cell p.1 p.2) b l).game_over = true) := by
  refine ⟨?_, ?_, ?_⟩
  · intro b row col hgo hb hcell
    rw [reveal_eq_mine_hit hgo hb hcell]
    exact ⟨setCell_same _ _ _ _, rfl⟩
  · intro b row col hgo
    exact reveal_eq_game_over hgo
  · intro b l hgo
    have hfold : ∀ (l : List (Nat × Nat)) (b : Board), b.game_over = true →
        List.foldl (fun acc p => acc.reveal_cell p.1 p.2) b l = b := by
      intro l
      induction l with
      | nil => intro b _; rfl
      | cons p rest ih =>
        intro b hgo
        simp only [List.foldl_cons]
        rw [reveal_eq_game_over hgo]
        exact ih b hgo
    refine ⟨hfold l b hgo, ?_⟩
    rw [hfold l b hgo]
    exact hgo

/-- C5: on a board with `game_over = false`, revealing an in-bounds
unrevealed, flagged mine leaves the whole board unchanged: `game_over`
stays false and the mine stays unrevealed. -/
theorem claim5 (b : Board) (row col : Nat)
    (hgo : b.game_over = false)
    (hb : in_bounds b.width b.height (row, col) = true)
    (hcell : b.grid row col = CellState.Mine false true) :
    b.reveal_cell row col = b ∧
    (b.reveal_cell row col).game_over = false ∧
    (b.reveal_cell row col).grid row col = CellState.Mine false true := by
  have h := reveal_eq_mine_flagged hgo hb hcell
  refine ⟨h, ?_, ?_⟩
  · rw [h]
    exact hgo
  · rw [h]
    exact hcell

/-- C6: flagging an in-bounds unrevealed mine toggles exactly its `flagged`
boolean (no other cell and no other field changes), and flagging twice
restores the exact original board; flagging a clue cell or a revealed cell
leaves the board unchanged. -/
theorem claim6 (b : Board) (row col : Nat) :
    (∀ f, in_bounds b.width b.height (row, col) = true →
        b.grid row col = CellState.Mine false f →
        (b.flag_cell row col).grid row col = CellState.Mine false (!f) ∧
        (∀ r c, ¬(r = row ∧ c = col) → (b.flag_cell row col).grid r c = b.grid r c) ∧
        (b.flag_cell row col).game_over = b.game_over ∧
        ((b.flag_cell row col).flag_cell row col) = b) ∧
    (∀ rv k, b.grid row col = CellState.Neighbours rv k → b.flag_cell row col = b) ∧
    (∀ f, b.grid row col = CellState.Mine true f → b.flag_cell row col = b) := by
  refine ⟨?_, ?_, ?_⟩
  · intro f hb hcell
    have h1 := flag_eq_set hb hcell
    have hcell1 : (b.flag_cell row col).grid row col = CellState.Mine false (!f) := by
      rw [h1]
      exact setCell_same _ _ _ _
    refine ⟨hcell1, ?_, ?_, ?_⟩
    · intro r c hrc
      rw [h1]
      exact setCell_ne _ _ _ _ _ _ hrc
    · rw [h1]
    · have hb1 : in_bounds (b.flag_cell row col).width (b.flag_cell row col).height
          (row, col) = true := by
        rw [h1]
        exact hb
      have h2 := flag_eq_set hb1 hcell1
      rw [h2, h1]
      apply Board.ext <;> try rfl
      simp only [Bool.not_not]
      exact setCell_setCell_cancel hcell
  · intro rv k hcell
    exact flag_eq_noop_clue hcell
  · intro f hcell
    exact flag_eq_noop_revealed hcell

/-- C7: for an out-of-bounds coordinate (`row ≥ height` or `col ≥ width`)
`reveal_cell` and `flag_cell` leave the board unchanged, and
`get_cell_state` returns `none` exactly for the out-of-bounds coordinates
and `some` of the current cell otherwise. -/
theorem claim7 (b : Board) (row col : Nat) :
    ((b.height ≤ row ∨ b.width ≤ col) →
        b.reveal_cell row col = b ∧ b.flag_cell row col = b) ∧
    (b.get_cell_state row col = none ↔ (b.height ≤ row ∨ b.width ≤ col)) ∧
    (¬(b.height ≤ row ∨ b.width ≤ col) →
        b.get_cell_state row col = some (b.grid row col)) := by
  refine ⟨?_, ?_, ?_⟩
  · intro hoob
    have hb : ¬ in_bounds b.width b.height (row, col) = true :=
      not_in_bounds_iff.2 hoob
    exact ⟨reveal_eq_oob hb, flag_eq_oob hb⟩
  · constructor
    · intro hnone
      by_contra hoob
      have hb : in_bounds b.width b.height (row, col) = true := by
        by_contra hb
        exact hoob (not_in_bounds_iff.1 hb)
      rw [Board.get_cell_state, if_pos hb] at hnone
      cases hnone
    · intro hoob
      have hb : ¬ in_bounds b.width b.height (row, col) = true :=
        not_in_bounds_iff.2 hoob
      rw [Board.get_cell_state, if_neg hb]
  · intro hoob
    have hb : in_bounds b.width b.height (row, col) = true := by
      by_contra hb
      exact hoob (not_in_bounds_iff.1 hb)
    rw [Board.get_cell_state, if_pos hb]

/-- Witness for C3: a concrete 2×2 board with a mine at row 0, col 0. -/
theorem claim3_witness :
    ((Board.new 2 2 [(0, 0)]).game_over = false ∧
     in_bounds (Board.new 2 2 [(0, 0)]).width (Board.new 2 2 [(0, 0)]).height (0, 0) = true ∧
     (Board.new 2 2 [(0, 0)]).grid 0 0 = CellState.Mine false false) ∧
    (((Board.new 2 2 [(0, 0)]).reveal_cell 0 0).grid 0 0 = CellState.Mine true false ∧
     ((Board.new 2 2 [(0, 0)]).reveal_cell 0 0).game_over = true) ∧
    (((Board.new 2 2 [(0, 0)]).reveal_cell 0 0).game_over = true ∧
     List.foldl (fun acc p => acc.reveal_cell p.1 p.2)
        ((Board.new 2 2 [(0, 0)]).reveal_cell 0 0) [(0, 1), (1, 1)]
        = (Board.new 2 2 [(0, 0)]).reveal_cell 0 0) :=
  ⟨⟨rfl, by decide, by decide⟩,
   claim3.1 (Board.new 2 2 [(0, 0)]) 0 0 rfl (by decide) (by decide),
   by decide,
   (claim3.2.2 ((Board.new 2 2 [(0, 0)]).reveal_cell 0 0) [(0, 1), (1, 1)]
     (by decide)).1⟩

/-- Witness for C5: the same board with the mine flagged first. -/
theorem claim5_witness :
    (((Board.new 2 2 [(0, 0)]).flag_cell 0 0).game_over = false ∧
     in_bounds ((Board.new 2 2 [(0, 0)]).flag_cell 0 0).width
       ((Board.new 2 2 [(0, 0)]).flag_cell 0 0).height (0, 0) = true ∧
     ((Board.new 2 2 [(0, 0)]).flag_cell 0 0).grid 0 0 = CellState.Mine false true) ∧
    (((Board.new 2 2 [(0, 0)]).flag_cell 0 0).reveal_cell 0 0
        = (Board.new 2 2 [(0, 0)]).flag_cell 0 0) :=
  ⟨⟨by decide, by decide, by decide⟩,
   (claim5 ((Board.new 2 2 [(0, 0)]).flag_cell 0 0) 0 0 (by decide) (by decide)
     (by decide)).1⟩

/-- Witness for C6: toggling the flag of the concrete mine twice. -/
theorem claim6_witness :
    (in_bounds (Board.new 2 2 [(0, 0)]).width (Board.new 2 2 [(0, 0)]).height (0, 0) = true ∧
     (Board.new 2 2 [(0, 0)]).grid 0 0 = CellState.Mine false false) ∧
    (((Board.new 2 2 [(0, 0)]).flag_cell 0 0).grid 0 0 = CellState.Mine false true ∧
     (((Board.new 2 2 [(0, 0)]).flag_cell 0 0).flag_cell 0 0) = Board.new 2 2 [(0, 0)]) :=
  ⟨⟨by decide, by decide⟩,
   by
    have h := (claim6 (Board.new 2 2 [(0, 0)]) 0 0).1 false (by decide) (by decide)
    exact ⟨h.1, h.2.2.2⟩⟩

/-- Witness for C7: the out-of-bounds coordinate (1, 0) on a 1×1 board. -/
theorem claim7_witness :
    ((Board.new 1 1 []).height ≤ 1 ∨ (Board.new 1 1 []).width ≤ 0) ∧
    ((Board.new 1 1 []).reveal_cell 1 0 = Board.new 1 1 [] ∧
     (Board.new 1 1 []).flag_cell 1 0 = Board.new 1 1 []) ∧
    (Board.new 1 1 []).get_cell_state 1 0 = none :=
  ⟨by decide,
   (claim7 (Board.new 1 1 []) 1 0).1 (by decide),
   ((claim7 (Board.new 1 1 []) 1 0).2.1).2 (by decide)⟩

/-! ## Claim C8: cell and board rendering -/

/-- C8 counterexample: the cell state `Mine` with `revealed = true` and `flagged = true`
is a revealed mine, yet the source's `Display` renders it as a blank, not as
`"X"` (only `Mine(true, false)` renders `"X"`); moreover a revealed zero-count
clue renders as the digit `"0"`, not as a blank. -/
theorem claim8_counterexample :
    isMineCell (CellState.Mine true true) = true ∧
    revealedOf (CellState.Mine true true) = true ∧
    CellState.display (CellState.Mine true true) = " " ∧
    ¬ CellState.display (CellState.Mine true true) = "X" ∧
    CellState.display (CellState.Neighbours true 0) = "0" ∧
    ¬ CellState.display (CellState.Neighbours true 0) = " " := by
  decide

/-- C8 (amended): for every cell state whose count lies in the possible
range 0–8, the rendering is `"X"` iff the cell is a revealed *unflagged*
mine, `"!"` iff it is an unrevealed flagged mine, the decimal digits of `k`
iff it is a revealed clue cell with count `k` (including `"0"` for a revealed
zero-count clue), and a blank otherwise; and the row-by-row board rendering
is a function of the board state alone. -/
theorem claim8 (cell : CellState) (hk : countOf cell ≤ 8) :
    ((cell.display = "X" ↔ cell = CellState.Mine true false) ∧
     (cell.display = "!" ↔ cell = CellState.Mine false true) ∧
     (∀ k : Nat, k ≤ 8 → (cell.display = toString k ↔ cell = CellState.Neighbours true k)) ∧
     (cell.display = " " ↔
        (cell ≠ CellState.Mine true false ∧ cell ≠ CellState.Mine false true ∧
         ∀ k : Nat, cell ≠ CellState.Neighbours true k))) ∧
    (∀ b b' : Board, b.width = b'.width → b.height = b'.height →
        (∀ r c, b.grid r c = b'.grid r c) → b.displayString = b'.displayString) := by
  constructor
  · rcases cell with ⟨a, f⟩ | ⟨rv, k⟩
    · refine ⟨by cases a <;> cases f <;> decide, by cases a <;> cases f <;> decide, ?_, ?_⟩
      · intro k2 hk2
        cases a <;> cases f <;> (interval_cases k2 <;> decide)
      · cases a <;> cases f
        · exact ⟨fun _ => ⟨by decide, by decide,
            fun k2 h => CellState.noConfusion h⟩, fun _ => by decide⟩
        · exact ⟨fun h => absurd h (by decide), fun h => absurd rfl h.2.1⟩
        · exact ⟨fun h => absurd h (by decide), fun h => absurd rfl h.1⟩
        · exact ⟨fun _ => ⟨by decide, by decide,
            fun k2 h => CellState.noConfusion h⟩, fun _ => by decide⟩
    · simp only [countOf] at hk
      cases rv
      · refine ⟨?_, ?_, ?_, ?_⟩
        · constructor
          · intro h
            rw [show (CellState.Neighbours false k).display = " " from rfl] at h
            exact absurd h (by decide)
          · intro h
            exact CellState.noConfusion h
        · constructor
          · intro h
            rw [show (CellState.Neighbours false k).display = " " from rfl] at h
            exact absurd h (by decide)
          · intro h
            exact CellState.noConfusion h
        · intro k2 hk2
          constructor
          · intro h
            rw [show (CellState.Neighbours false k).display = " " from rfl] at h
            exfalso
            interval_cases k2 <;> exact absurd h (by decide)
          · intro h
            obtain ⟨hb, -⟩ := CellState.Neighbours.inj h
            exact Bool.noConfusion hb
        · refine ⟨fun _ => ⟨fun h => CellState.noConfusion h, fun h => CellState.noConfusion h, ?_⟩,
            fun _ => rfl⟩
          intro k2 h
          obtain ⟨hb, -⟩ := CellState.Neighbours.inj h
          exact Bool.noConfusion hb
      · refine ⟨?_, ?_, ?_, ?_⟩
        · constructor
          · intro h
            exfalso
            interval_cases k <;> exact absurd h (by decide)
          · intro h
            exact CellState.noConfusion h
        · constructor
          · intro h
            exfalso
            interval_cases k <;> exact absurd h (by decide)
          · intro h
            exact CellState.noConfusion h
        · intro k2 hk2
          interval_cases k <;> interval_cases k2 <;> decide
        · constructor
          · intro h
            exfalso
            interval_cases k <;> exact absurd h (by decide)
          · intro h
            exact absurd rfl (h.2.2 k)
  · intro b b' hw hh hg
    have hgrid : b.grid = b'.grid := funext fun r => funext fun c => hg r c
    simp only [Board.displayString, hw, hh, hgrid]

/-- Witness for C8 at the revealed clue cell with count 3. -/
theorem claim8_witness :
    countOf (CellState.Neighbours true 3) ≤ 8 ∧
    (CellState.display (CellState.Neighbours true 3) = "X" ↔
      CellState.Neighbours true 3 = CellState.Mine true false) :=
  ⟨by decide, (claim8 (CellState.Neighbours true 3) (by decide)).1.1⟩

/-! ## Board construction: counting lemmas -/

theorem increment_fold_mine {width height mr mc : Nat} :
    ∀ (dirs : List Direction) (g : Grid) (r c : Nat) (a f : Bool),
      g r c = CellState.Mine a f →
      (dirs.foldl (incrementStep width height mr mc) g) r c = CellState.Mine a f := by
  intro dirs
  induction dirs with
  | nil =>
    intro g r c a f hg
    exact hg
  | cons d rest ih =>
    intro g r c a f hg
    rw [List.foldl_cons]
    apply ih
    rcases hoff : d.offset (mr, mc) with _ | ⟨oR, oC⟩
    · simp [incrementStep, hoff, hg]
    · by_cases hin : in_bounds width height (oR, oC) = true
      · rcases hcell : g oR oC with ⟨a2, f2⟩ | ⟨rv2, v2⟩
        · simp [incrementStep, hoff, hin, hcell, hg]
        · simp only [incrementStep, hoff, hin, hcell, if_pos]
          rw [setCell_ne]
          · exact hg
          · rintro ⟨rfl, rfl⟩
            rw [hg] at hcell
            cases hcell
      · simp [incrementStep, hoff, hin, hg]

theorem increment_fold_clue {width height mr mc : Nat} :
    ∀ (dirs : List Direction) (g : Grid) (r c : Nat) (rv : Bool) (v : Nat),
      g r c = CellState.Neighbours rv v →
      (dirs.foldl (incrementStep width height mr mc) g) r c
        = CellState.Neighbours rv
            (v + (dirs.filter (fun d =>
              decide (d.offset (mr, mc) = some (r, c)) &&
              in_bounds width height (r, c))).length) := by
  intro dirs
  induction dirs with
  | nil =>
    intro g r c rv v hg
    simpa using hg
  | cons d rest ih =>
    intro g r c rv v hg
    rw [List.foldl_cons, List.filter_cons]
    rcases hoff : d.offset (mr, mc) with _ | ⟨oR, oC⟩
    · have hstep : incrementStep width height mr mc g d = g := by
        simp [incrementStep, hoff]
      rw [hstep, if_neg (by simp), ih g r c rv v hg]
    · by_cases heq : (oR, oC) = (r, c)
      · rw [Prod.mk.injEq] at heq
        obtain ⟨rfl, rfl⟩ := heq
        by_cases hin : in_bounds width height (oR, oC) = true
        · have hstep : incrementStep width height mr mc g d
              = setCell g oR oC (CellState.Neighbours rv (v + 1)) := by
            simp [incrementStep, hoff, hin, hg]
          rw [hstep, ih _ oR oC rv (v + 1) (setCell_same _ _ _ _),
            if_pos (by simp [hin]), List.length_cons]
          congr 1
          omega
        · have hstep : incrementStep width height mr mc g d = g := by
            simp [incrementStep, hoff, hin]
          rw [hstep, if_neg (by simp [hin]), ih g oR oC rv v hg]
      · have hne : (some (oR, oC) : Option (Nat × Nat)) ≠ some (r, c) := by
          intro h
          exact heq (Option.some.inj h)
        rw [if_neg (by simp [hne])]
        by_cases hin : in_bounds width height (oR, oC) = true
        · rcases hcell : g oR oC with ⟨a2, f2⟩ | ⟨rv2, v2⟩
          · have hstep : incrementStep width height mr mc g d = g := by
              simp [incrementStep, hoff, hin, hcell]
            rw [hstep, ih g r c rv v hg]
          · have hstep : incrementStep width height mr mc g d
                = setCell g oR oC (CellState.Neighbours rv2 (v2 + 1)) := by
              simp [incrementStep, hoff, hin, hcell]
            rw [hstep]
            apply ih
            rw [setCell_ne]
            · exact hg
            · rintro ⟨rfl, rfl⟩
              exact heq rfl
        · have hstep : incrementStep width height mr mc g d = g := by
            simp [incrementStep, hoff, hin]
          rw [hstep, ih g r c rv v hg]

theorem filter_length_eq_one {α : Type} {l : List α} {p : α → Bool} {a : α}
    (hnd : l.Nodup) (ha : a ∈ l) (hpa : p a = true)
    (huniq : ∀ b ∈ l, p b = true → b = a) :
    (l.filter p).length = 1 := by
  induction l with
  | nil => cases ha
  | cons b t ih =>
    rw [List.filter_cons]
    rcases List.mem_cons.1 ha with rfl | hat
    · rw [if_pos hpa, List.length_cons]
      have hnil : t.filter p = [] := by
        rw [List.filter_eq_nil_iff]
        intro x hx hpx
        have hxa := huniq x (List.mem_cons_of_mem _ hx) hpx
        subst hxa
        exact (List.nodup_cons.1 hnd).1 hx
      rw [hnil]
      rfl
    · have hba : b ≠ a := by
        intro h
        subst h
        exact (List.nodup_cons.1 hnd).1 hat
      by_cases hpb : p b = true
      · exact absurd (huniq b (List.mem_cons_self b t) hpb) hba
      · rw [if_neg hpb]
        exact ih (List.nodup_cons.1 hnd).2 hat
          (fun x hx hpx => huniq x (List.mem_cons_of_mem _ hx) hpx)

theorem dir_filter_length {width height : Nat} (p q : Nat × Nat) :
    (ALL_DIRECTIONS.filter (fun d =>
        decide (d.offset p = some q) && in_bounds width height q)).length
    = if (adjB p q && in_bounds width height q) = true then 1 else 0 := by
  by_cases hin : in_bounds width height q = true
  · by_cases hadj : adjB p q = true
    · rw [if_pos (by simp [hadj, hin])]
      obtain ⟨d, hd⟩ := adjB_iff.1 hadj
      apply filter_length_eq_one ALL_DIRECTIONS_nodup (mem_ALL_DIRECTIONS d)
      · simp [hd, hin]
      · intro b _ hpb
        simp only [Bool.and_eq_true, decide_eq_true_eq] at hpb
        exact offset_inj hpb.1 hd
    · rw [if_neg (by simp [hadj]), List.length_eq_zero, List.filter_eq_nil_iff]
      intro d _ hpd
      simp only [Bool.and_eq_true, decide_eq_true_eq] at hpd
      exact hadj (adjB_iff.2 ⟨d, hpd.1⟩)
  · rw [if_neg (by simp [hin]), List.length_eq_zero, List.filter_eq_nil_iff]
    intro d _ hpd
    simp only [Bool.and_eq_true, decide_eq_true_eq] at hpd
    exact hin hpd.2

theorem build_grid_spec {width height : Nat} :
    ∀ (coords : List (Nat × Nat)), coords.Nodup →
      (∀ p ∈ coords, p.1 < width ∧ p.2 < height) →
      ∀ r c, (coords.foldl (placeMine width height) initGrid) r c
        = if (c, r) ∈ coords then CellState.Mine false false
          else CellState.Neighbours false (countAdj width height coords r c) := by
  intro coords
  induction coords using List.reverseRecOn with
  | nil =>
    intro _ _ r c
    simp [initGrid, countAdj]
  | append_singleton l m ihl =>
    intro hnd hin r c
    obtain ⟨hndl, -, hdisj⟩ := List.nodup_append.1 hnd
    have hinl : ∀ p ∈ l, p.1 < width ∧ p.2 < height :=
      fun p hp => hin p (List.mem_append_left _ hp)
    rw [List.foldl_append, List.foldl_cons, List.foldl_nil]
    obtain ⟨mCol, mRow⟩ := m
    by_cases hcr : (c, r) = (mCol, mRow)
    · rw [Prod.mk.injEq] at hcr
      obtain ⟨rfl, rfl⟩ := hcr
      rw [if_pos (List.mem_append_right _ (List.mem_singleton.2 rfl))]
      show incrementNeighbours width height _ r c r c = CellState.Mine false false
      rw [incrementNeighbours]
      exact increment_fold_mine ALL_DIRECTIONS _ r c false false (setCell_same _ _ _ _)
    · have hne : ¬(r = mRow ∧ c = mCol) := by
        rintro ⟨rfl, rfl⟩
        exact hcr rfl
      have hsetval : setCell (l.foldl (placeMine width height) initGrid) mRow mCol
          (CellState.Mine false false) r c
          = (l.foldl (placeMine width height) initGrid) r c :=
        setCell_ne _ _ _ _ _ _ hne
      by_cases hml : (c, r) ∈ l
      · have hglval : (l.foldl (placeMine width height) initGrid) r c
            = CellState.Mine false false := by
          rw [ihl hndl hinl r c, if_pos hml]
        rw [if_pos (List.mem_append_left _ hml)]
        show incrementNeighbours width height _ mRow mCol r c = CellState.Mine false false
        rw [incrementNeighbours]
        exact increment_fold_mine ALL_DIRECTIONS _ r c false false
          (hsetval.trans hglval)
      · have hnomem : (c, r) ∉ l ++ [(mCol, mRow)] := by
          intro hmem
          rcases List.mem_append.1 hmem with h | h
          · exact hml h
          · exact hcr (List.mem_singleton.1 h)
        rw [if_neg hnomem]
        have hglval : (l.foldl (placeMine width height) initGrid) r c
            = CellState.Neighbours false (countAdj width height l r c) := by
          rw [ihl hndl hinl r c, if_neg hml]
        show incrementNeighbours width height _ mRow mCol r c = _
        rw [incrementNeighbours]
        rw [increment_fold_clue ALL_DIRECTIONS _ r c false _ (hsetval.trans hglval)]
        rw [dir_filter_length (mRow, mCol) (r, c)]
        congr 1
        rw [countAdj, countAdj, List.filter_append, List.length_append]
        congr 1
        rw [List.filter_cons, List.filter_nil]
        by_cases hpred : (adjB (mRow, mCol) (r, c) && in_bounds width height (r, c)) = true
        · rw [if_pos hpred, if_pos hpred]
          rfl
        · rw [if_neg hpred, if_neg hpred]
          rfl

theorem countAdj_eq_spec {width height : Nat} (coords : List (Nat × Nat))
    (hnd : coords.Nodup) (hin : ∀ p ∈ coords, p.1 < width ∧ p.2 < height)
    (r c : Nat) (hb : in_bounds width height (r, c) = true) :
    countAdj width height coords r c
      = specAdjMineCount (Board.new width height coords) r c := by
  have hmine : ∀ qr qc, isMineCell ((Board.new width height coords).grid qr qc) = true
      ↔ (qc, qr) ∈ coords := by
    intro qr qc
    show isMineCell ((coords.foldl (placeMine width height) initGrid) qr qc) = true ↔ _
    rw [build_grid_spec coords hnd hin qr qc]
    by_cases hmem : (qc, qr) ∈ coords
    · simp [hmem, isMineCell]
    · simp [hmem, isMineCell]
  have hAnodup : (ALL_DIRECTIONS.filter (fun d =>
      match d.offset (r, c) with
      | some q => in_bounds width height q &&
          isMineCell ((Board.new width height coords).grid q.1 q.2)
      | none => false)).Nodup := ALL_DIRECTIONS_nodup.filter _
  have hBnodup : (coords.filter (fun p => adjB (p.2, p.1) (r, c))).Nodup :=
    hnd.filter _
  have key : (ALL_DIRECTIONS.filter (fun d =>
      match d.offset (r, c) with
      | some q => in_bounds width height q &&
          isMineCell ((Board.new width height coords).grid q.1 q.2)
      | none => false)).length
      = (coords.filter (fun p => adjB (p.2, p.1) (r, c))).length := by
    rw [← List.toFinset_card_of_nodup hAnodup, ← List.toFinset_card_of_nodup hBnodup]
    refine Finset.card_bij
      (fun d _ => (((d.offset (r, c)).getD (0, 0)).2, ((d.offset (r, c)).getD (0, 0)).1))
      ?_ ?_ ?_
    · intro d hd
      rw [List.mem_toFinset, List.mem_filter] at hd
      obtain ⟨hdmem, hP⟩ := hd
      rcases hoffd : d.offset (r, c) with _ | ⟨qr, qc⟩
      · rw [hoffd] at hP
        simp at hP
      · rw [hoffd] at hP
        simp only [Bool.and_eq_true] at hP
        obtain ⟨hinq, hmq⟩ := hP
        rw [List.mem_toFinset, List.mem_filter]
        simp only [hoffd, Option.getD_some]
        exact ⟨(hmine qr qc).1 hmq, adjB_iff.2 (offset_symm hoffd)⟩
    · intro d1 hd1 d2 hd2 hid
      rw [List.mem_toFinset, List.mem_filter] at hd1 hd2
      rcases hoff1 : d1.offset (r, c) with _ | ⟨q1r, q1c⟩
      · rw [hoff1] at hd1
        simp at hd1
      rcases hoff2 : d2.offset (r, c) with _ | ⟨q2r, q2c⟩
      · rw [hoff2] at hd2
        simp at hd2
      simp only [hoff1, hoff2, Option.getD_some, Prod.mk.injEq] at hid
      obtain ⟨h1, h2⟩ := hid
      subst h1
      subst h2
      exact offset_inj hoff1 hoff2
    · intro p hp
      rw [List.mem_toFinset, List.mem_filter] at hp
      obtain ⟨hpc, hpadj⟩ := hp
      obtain ⟨d0, h0⟩ := adjB_iff.1 hpadj
      obtain ⟨d, hd⟩ := offset_symm h0
      refine ⟨d, ?_, ?_⟩
      · rw [List.mem_toFinset, List.mem_filter]
        refine ⟨mem_ALL_DIRECTIONS d, ?_⟩
        rw [hd]
        simp only [Bool.and_eq_true]
        constructor
        · obtain ⟨h1, h2⟩ := hin p hpc
          simp [in_bounds, h1, h2]
        · have := (hmine p.2 p.1).2
          simp only [Prod.mk.eta] at this
          exact this hpc
      · simp only [hd, Option.getD_some]
  calc countAdj width height coords r c
      = (coords.filter (fun p => adjB (p.2, p.1) (r, c))).length := by
        rw [countAdj]
        exact congrArg _ (List.filter_congr (fun p _ => by rw [hb, Bool.and_true]))
    _ = (ALL_DIRECTIONS.filter (fun d =>
          match d.offset (r, c) with
          | some q => in_bounds width height q &&
              isMineCell ((Board.new width height coords).grid q.1 q.2)
          | none => false)).length := key.symm
    _ = specAdjMineCount (Board.new width height coords) r c := rfl

theorem new_board_cells {width height : Nat} (coords : List (Nat × Nat))
    (hnd : coords.Nodup) (hin : ∀ p ∈ coords, p.1 < width ∧ p.2 < height)
    (r c : Nat) :
    (Board.new width height coords).grid r c = CellState.Mine false false ∨
    ∃ k, (Board.new width height coords).grid r c = CellState.Neighbours false k := by
  have hval := @build_grid_spec width height coords hnd hin r c
  by_cases hmem : (c, r) ∈ coords
  · left
    show (coords.foldl (placeMine width height) initGrid) r c = _
    rw [hval, if_pos hmem]
  · right
    refine ⟨countAdj width height coords r c, ?_⟩
    show (coords.foldl (placeMine width height) initGrid) r c = _
    rw [hval, if_neg hmem]

/-- C2: on any board built by `Board::new` from distinct in-range mine
coordinates, every clue cell's `adjacent_mine_count` equals the number of its
in-bounds 8-neighbours (N, S, E, W and the four diagonals) that are mine
cells — independently of which coordinates were selected and of their
order, which the statement's quantification over the selection list makes
exact. -/
theorem claim2 (width height mines : Nat) (coords : List (Nat × Nat))
    (hw : 0 < width) (hh : 0 < height)
    (hnd : coords.Nodup) (hin : ∀ p ∈ coords, p.1 < width ∧ p.2 < height)
    (hm : coords.length = mines) (hmle : mines ≤ width * height)
    (r c : Nat) (hb : in_bounds width height (r, c) = true)
    (rv : Bool) (k : Nat)
    (hcell : (Board.new width height coords).grid r c = CellState.Neighbours rv k) :
    k = specAdjMineCount (Board.new width height coords) r c := by
  have hspec := @build_grid_spec width height coords hnd hin r c
  rw [show (Board.new width height coords).grid
      = coords.foldl (placeMine width height) initGrid from rfl] at hcell
  rw [hspec] at hcell
  by_cases hmem : (c, r) ∈ coords
  · rw [if_pos hmem] at hcell
    exact CellState.noConfusion hcell
  · rw [if_neg hmem] at hcell
    obtain ⟨-, rfl⟩ := CellState.Neighbours.inj hcell
    exact countAdj_eq_spec coords hnd hin r c hb

/-- Witness for C2: a 3×3 board with one mine at column 1, row 1; the corner
cell (0, 0) is a clue cell with count 1. -/
theorem claim2_witness :
    (0 < 3 ∧ ([((1 : Nat), (1 : Nat))] : List (Nat × Nat)).Nodup ∧
     in_bounds 3 3 ((0 : Nat), (0 : Nat)) = true ∧
     (Board.new 3 3 [(1, 1)]).grid 0 0 = CellState.Neighbours false 1) ∧
    (1 : Nat) = specAdjMineCount (Board.new 3 3 [(1, 1)]) 0 0 :=
  ⟨⟨by decide, by decide, by decide, by decide⟩,
   claim2 3 3 1 [(1, 1)] (by decide) (by decide) (by decide)
     (by intro p hp; simp at hp; simp [hp]) (by decide) (by decide)
     0 0 (by decide) false 1 (by decide)⟩

/-- C4: a board built by `Board::new` from `mines` distinct in-range
coordinates has exactly `mines` mine cells and `width*height - mines` clue
cells, `game_over = false`, and every in-bounds cell unrevealed and
unflagged. -/
theorem claim4 (width height mines : Nat) (coords : List (Nat × Nat))
    (hw : 0 < width) (hh : 0 < height) (hmle : mines ≤ width * height)
    (hnd : coords.Nodup) (hin : ∀ p ∈ coords, p.1 < width ∧ p.2 < height)
    (hm : coords.length = mines) :
    mineCount (Board.new width height coords) = mines ∧
    clueCount (Board.new width height coords) = width * height - mines ∧
    (Board.new width height coords).game_over = false ∧
    (∀ r c, in_bounds width height (r, c) = true →
        revealedOf ((Board.new width height coords).grid r c) = false ∧
        flagOf ((Board.new width height coords).grid r c) = false) := by
  have hcells := new_board_cells coords hnd hin
  have hset : (Finset.range height ×ˢ Finset.range width).filter
      (fun q => isMineCell ((Board.new width height coords).grid q.1 q.2) = true)
      = coords.toFinset.image (fun p => (p.2, p.1)) := by
    ext ⟨qr, qc⟩
    simp only [Finset.mem_filter, Finset.mem_product, Finset.mem_range,
      Finset.mem_image, List.mem_toFinset]
    constructor
    · rintro ⟨⟨h1, h2⟩, hmq⟩
      have hval : (coords.foldl (placeMine width height) initGrid) qr qc
          = if (qc, qr) ∈ coords then CellState.Mine false false
            else CellState.Neighbours false (countAdj width height coords qr qc) :=
        build_grid_spec coords hnd hin qr qc
      by_cases hmem : (qc, qr) ∈ coords
      · exact ⟨(qc, qr), hmem, rfl⟩
      · rw [show (Board.new width height coords).grid
            = coords.foldl (placeMine width height) initGrid from rfl, hval,
            if_neg hmem] at hmq
        simp [isMineCell] at hmq
    · rintro ⟨p, hp, heq⟩
      rw [Prod.mk.injEq] at heq
      obtain ⟨rfl, rfl⟩ := heq
      obtain ⟨h1, h2⟩ := hin p hp
      refine ⟨⟨h2, h1⟩, ?_⟩
      have hval : (coords.foldl (placeMine width height) initGrid) p.2 p.1
          = if (p.1, p.2) ∈ coords then CellState.Mine false false
            else CellState.Neighbours false (countAdj width height coords p.2 p.1) :=
        build_grid_spec coords hnd hin p.2 p.1
      rw [show (Board.new width height coords).grid
          = coords.foldl (placeMine width height) initGrid from rfl, hval,
          if_pos (by simpa [Prod.mk.eta] using hp)]
      rfl
  have hinj : Function.Injective (fun p : Nat × Nat => (p.2, p.1)) := by
    intro p1 p2 h
    rw [Prod.mk.injEq] at h
    exact Prod.ext h.2 h.1
  have hminecount : mineCount (Board.new width height coords) = mines := by
    rw [mineCount]
    show ((Finset.range height ×ˢ Finset.range width).filter
      (fun q => isMineCell ((Board.new width height coords).grid q.1 q.2) = true)).card = mines
    rw [hset, Finset.card_image_of_injective _ hinj,
      List.toFinset_card_of_nodup hnd, hm]
  refine ⟨hminecount, ?_, rfl, ?_⟩
  · have htotal : ((Finset.range height ×ˢ Finset.range width).filter
          (fun q => isMineCell ((Board.new width height coords).grid q.1 q.2) = true)).card
        + ((Finset.range height ×ˢ Finset.range width).filter
          (fun q => ¬ isMineCell ((Board.new width height coords).grid q.1 q.2) = true)).card
        = (Finset.range height ×ˢ Finset.range width).card :=
      Finset.filter_card_add_filter_neg_card_eq_card _
    have hcard : (Finset.range height ×ˢ Finset.range width).card = width * height := by
      simp [Finset.card_product, Nat.mul_comm]
    have hclue : clueCount (Board.new width height coords)
        = ((Finset.range height ×ˢ Finset.range width).filter
            (fun q => ¬ isMineCell ((Board.new width height coords).grid q.1 q.2) = true)).card := by
      rw [clueCount]
      congr 1
      apply Finset.filter_congr
      intro q _
      cases hx : isMineCell ((Board.new width height coords).grid q.1 q.2) <;> simp [hx]
    rw [hclue]
    rw [hset, Finset.card_image_of_injective _ hinj,
      List.toFinset_card_of_nodup hnd, hm, hcard] at htotal
    omega
  · intro r c _
    rcases hcells r c with h | ⟨k, h⟩
    · rw [h]
      exact ⟨rfl, rfl⟩
    · rw [h]
      exact ⟨rfl, rfl⟩

/-- Witness for C4: the 3×3 board with one mine. -/
theorem claim4_witness :
    (0 < 3 ∧ (1 : Nat) ≤ 3 * 3 ∧ ([((1 : Nat), (1 : Nat))] : List (Nat × Nat)).Nodup) ∧
    (mineCount (Board.new 3 3 [(1, 1)]) = 1 ∧
     clueCount (Board.new 3 3 [(1, 1)]) = 3 * 3 - 1 ∧
     (Board.new 3 3 [(1, 1)]).game_over = false) :=
  ⟨⟨by decide, by decide, by decide⟩,
   by
    have h := claim4 3 3 1 [(1, 1)] (by decide) (by decide) (by decide) (by decide)
      (by intro p hp; simp at hp; simp [hp]) (by decide)
    exact ⟨h.1, h.2.1, h.2.2.1⟩⟩

/-! ## Frame lemmas for single operations -/

theorem dfs_top_frame (width height : Nat) (g : Grid) (row col : Nat) :
    ∀ r c, (reveal_cell_dfs width height g row col ∅).1 r c = g r c ∨
      ∃ k, g r c = CellState.Neighbours false k ∧
        (reveal_cell_dfs width height g row col ∅).1 r c = CellState.Neighbours true k := by
  intro r c
  by_cases hb : in_bounds width height (row, col) = true
  · rcases hcell : g row col with ⟨a, f⟩ | ⟨rv, k⟩
    · rw [dfs_eq_mine hb (Finset.not_mem_empty _) hcell]
      exact Or.inl rfl
    · cases rv
      · by_cases hk : 0 < k
        · rw [dfs_eq_numbered hb (Finset.not_mem_empty _) hcell hk]
          by_cases hrc : r = row ∧ c = col
          · obtain ⟨rfl, rfl⟩ := hrc
            exact Or.inr ⟨k, hcell, setCell_same _ _ _ _⟩
          · exact Or.inl (setCell_ne _ _ _ _ _ _ hrc)
        · have hk0 : k = 0 := by omega
          subst hk0
          have hseedZ : ZCell width height g (row, col) := ⟨hb, hcell⟩
          obtain ⟨⟨hA, -, -, -⟩, -⟩ := dfs_spec hseedZ (dfsMeasure width height ∅)
            g row col ∅ (le_refl _) (fun r2 c2 => Or.inl rfl)
            (fun _ => Or.inl Relation.ReflTransGen.refl)
          rcases hA r c with he | ⟨-, -, k2, hg0, hout⟩
          · exact Or.inl he
          · exact Or.inr ⟨k2, hg0, hout⟩
      · rw [dfs_eq_revealed hb (Finset.not_mem_empty _) hcell]
        exact Or.inl rfl
  · rw [dfs_eq_oob hb]
    exact Or.inl rfl

theorem reveal_cell_cell_frame (b : Board) (row col r c : Nat) :
    (b.reveal_cell row col).grid r c = b.grid r c ∨
    ((r, c) = (row, col) ∧ b.grid r c = CellState.Mine false false ∧
        (b.reveal_cell row col).grid r c = CellState.Mine true false) ∨
    ∃ k, b.grid r c = CellState.Neighbours false k ∧
        (b.reveal_cell row col).grid r c = CellState.Neighbours true k := by
  by_cases hgo : b.game_over
  · rw [reveal_eq_game_over hgo]
    exact Or.inl rfl
  · have hgo' : b.game_over = false := by
      cases h : b.game_over
      · rfl
      · exact absurd h hgo
    by_cases hb : in_bounds b.width b.height (row, col) = true
    · rcases hcell : b.grid row col with ⟨a, f⟩ | ⟨rv, k⟩
      · cases a
        · cases f
          · rw [reveal_eq_mine_hit hgo' hb hcell]
            by_cases hrc : r = row ∧ c = col
            · obtain ⟨rfl, rfl⟩ := hrc
              exact Or.inr (Or.inl ⟨rfl, hcell, setCell_same _ _ _ _⟩)
            · exact Or.inl (setCell_ne _ _ _ _ _ _ hrc)
          · rw [reveal_eq_mine_flagged hgo' hb hcell]
            exact Or.inl rfl
        · rw [reveal_eq_dfs hgo' hb (fun f2 h => by rw [hcell] at h; cases h)]
          rcases dfs_top_frame b.width b.height b.grid row col r c with h | ⟨k2, h1, h2⟩
          · exact Or.inl h
          · exact Or.inr (Or.inr ⟨k2, h1, h2⟩)
      · rw [reveal_eq_dfs hgo' hb (fun f2 h => by rw [hcell] at h; cases h)]
        rcases dfs_top_frame b.width b.height b.grid row col r c with h | ⟨k2, h1, h2⟩
        · exact Or.inl h
        · exact Or.inr (Or.inr ⟨k2, h1, h2⟩)
    · rw [reveal_eq_oob hb]
      exact Or.inl rfl

theorem reveal_cell_game_over_frame (b : Board) (row col : Nat) :
    (b.reveal_cell row col).game_over = b.game_over ∨
    ((b.reveal_cell row col).game_over = true ∧
      in_bounds b.width b.height (row, col) = true ∧
      b.grid row col = CellState.Mine false false ∧
      (b.reveal_cell row col).grid row col = CellState.Mine true false) := by
  by_cases hgo : b.game_over
  · rw [reveal_eq_game_over hgo]
    exact Or.inl rfl
  · have hgo' : b.game_over = false := by
      cases h : b.game_over
      · rfl
      · exact absurd h hgo
    by_cases hb : in_bounds b.width b.height (row, col) = true
    · rcases hcell : b.grid row col with ⟨a, f⟩ | ⟨rv, k⟩
      · cases a
        · cases f
          · rw [reveal_eq_mine_hit hgo' hb hcell]
            exact Or.inr ⟨rfl, hb, rfl, setCell_same _ _ _ _⟩
          · rw [reveal_eq_mine_flagged hgo' hb hcell]
            exact Or.inl rfl
        · rw [reveal_eq_dfs hgo' hb (fun f2 h => by rw [hcell] at h; cases h)]
          exact Or.inl rfl
      · rw [reveal_eq_dfs hgo' hb (fun f2 h => by rw [hcell] at h; cases h)]
        exact Or.inl rfl
    · rw [reveal_eq_oob hb]
      exact Or.inl rfl

theorem flag_cell_cell_frame (b : Board) (row col r c : Nat) :
    (b.flag_cell row col).grid r c = b.grid r c ∨
    ((r, c) = (row, col) ∧ ∃ f, b.grid r c = CellState.Mine false f ∧
        (b.flag_cell row col).grid r c = CellState.Mine false (!f)) := by
  by_cases hb : in_bounds b.width b.height (row, col) = true
  · rcases hcell : b.grid row col with ⟨a, f⟩ | ⟨rv, k⟩
    · cases a
      · rw [flag_eq_set hb hcell]
        by_cases hrc : r = row ∧ c = col
        · obtain ⟨rfl, rfl⟩ := hrc
          exact Or.inr ⟨rfl, f, hcell, setCell_same _ _ _ _⟩
        · exact Or.inl (setCell_ne _ _ _ _ _ _ hrc)
      · rw [flag_eq_noop_revealed hcell]
        exact Or.inl rfl
    · rw [flag_eq_noop_clue hcell]
      exact Or.inl rfl
  · rw [flag_eq_oob hb]
    exact Or.inl rfl

theorem flag_cell_game_over (b : Board) (row col : Nat) :
    (b.flag_cell row col).game_over = b.game_over := by
  by_cases hb : in_bounds b.width b.height (row, col) = true
  · rcases hcell : b.grid row col with ⟨a, f⟩ | ⟨rv, k⟩
    · cases a
      · rw [flag_eq_set hb hcell]
      · rw [flag_eq_noop_revealed hcell]
    · rw [flag_eq_noop_clue hcell]
  · rw [flag_eq_oob hb]

theorem dims_frame (b : Board) (row col : Nat) :
    (b.reveal_cell row col).width = b.width ∧
    (b.reveal_cell row col).height = b.height ∧
    (b.flag_cell row col).width = b.width ∧
    (b.flag_cell row col).height = b.height := by
  refine ⟨?_, ?_, ?_, ?_⟩
  · by_cases hgo : b.game_over
    · rw [reveal_eq_game_over hgo]
    · have hgo' : b.game_over = false := by
        cases h : b.game_over
        · rfl
        · exact absurd h hgo
      by_cases hb : in_bounds b.width b.height (row, col) = true
      · rcases hcell : b.grid row col with ⟨a, f⟩ | ⟨rv, k⟩
        · cases a
          · cases f
            · rw [reveal_eq_mine_hit hgo' hb hcell]
            · rw [reveal_eq_mine_flagged hgo' hb hcell]
          · rw [reveal_eq_dfs hgo' hb (fun f2 h => by rw [hcell] at h; cases h)]
        · rw [reveal_eq_dfs hgo' hb (fun f2 h => by rw [hcell] at h; cases h)]
      · rw [reveal_eq_oob hb]
  · by_cases hgo : b.game_over
    · rw [reveal_eq_game_over hgo]
    · have hgo' : b.game_over = false := by
        cases h : b.game_over
        · rfl
        · exact absurd h hgo
      by_cases hb : in_bounds b.width b.height (row, col) = true
      · rcases hcell : b.grid row col with ⟨a, f⟩ | ⟨rv, k⟩
        · cases a
          · cases f
            · rw [reveal_eq_mine_hit hgo' hb hcell]
            · rw [reveal_eq_mine_flagged hgo' hb hcell]
          · rw [reveal_eq_dfs hgo' hb (fun f2 h => by rw [hcell] at h; cases h)]
        · rw [reveal_eq_dfs hgo' hb (fun f2 h => by rw [hcell] at h; cases h)]
      · rw [reveal_eq_oob hb]
  · by_cases hb : in_bounds b.width b.height (row, col) = true
    · rcases hcell : b.grid row col with ⟨a, f⟩ | ⟨rv, k⟩
      · cases a
        · rw [flag_eq_set hb hcell]
        · rw [flag_eq_noop_revealed hcell]
      · rw [flag_eq_noop_clue hcell]
    · rw [flag_eq_oob hb]
  · by_cases hb : in_bounds b.width b.height (row, col) = true
    · rcases hcell : b.grid row col with ⟨a, f⟩ | ⟨rv, k⟩
      · cases a
        · rw [flag_eq_set hb hcell]
        · rw [flag_eq_noop_revealed hcell]
      · rw [flag_eq_noop_clue hcell]
    · rw [flag_eq_oob hb]

/-! ## Claim C10 -/

theorem applyAction_cell_frame (b : Board) (a : GameAction) (r c : Nat) :
    isMineCell ((applyAction b a).grid r c) = isMineCell (b.grid r c) ∧
    countOf ((applyAction b a).grid r c) = countOf (b.grid r c) ∧
    (revealedOf (b.grid r c) = true →
      revealedOf ((applyAction b a).grid r c) = true) := by
  rcases a with ⟨row, col⟩ | ⟨row, col⟩
  · simp only [applyAction]
    rcases reveal_cell_cell_frame b row col r c with h | ⟨-, h1, h2⟩ | ⟨k, h1, h2⟩
    · rw [h]
      exact ⟨rfl, rfl, fun hr => hr⟩
    · rw [h1, h2]
      exact ⟨rfl, rfl, fun hr => by simp [revealedOf] at hr⟩
    · rw [h1, h2]
      exact ⟨rfl, rfl, fun hr => by simp [revealedOf] at hr⟩
  · simp only [applyAction]
    rcases flag_cell_cell_frame b row col r c with h | ⟨-, f, h1, h2⟩
    · rw [h]
      exact ⟨rfl, rfl, fun hr => hr⟩
    · rw [h1, h2]
      exact ⟨rfl, rfl, fun hr => by simp [revealedOf] at hr⟩

/-- C10: across any sequence of `reveal_cell`/`flag_cell` calls, no cell is
ever un-revealed, no cell changes variant (mine stays mine, clue stays
clue), no clue count changes, and a single `reveal_cell` never changes any
cell's `flagged` field. -/
theorem claim10 :
    (∀ (b : Board) (acts : List GameAction) (r c : Nat),
        isMineCell ((applyActions b acts).grid r c) = isMineCell (b.grid r c) ∧
        countOf ((applyActions b acts).grid r c) = countOf (b.grid r c) ∧
        (revealedOf (b.grid r c) = true →
          revealedOf ((applyActions b acts).grid r c) = true)) ∧
    (∀ (b : Board) (row col r c : Nat),
        flagOf ((b.reveal_cell row col).grid r c) = flagOf (b.grid r c)) := by
  constructor
  · intro b acts
    induction acts generalizing b with
    | nil =>
      intro r c
      exact ⟨rfl, rfl, fun hr => hr⟩
    | cons a rest ih =>
      intro r c
      have hstep := applyAction_cell_frame b a r c
      have hrest := ih (applyAction b a) r c
      rw [applyActions, List.foldl_cons]
      refine ⟨?_, ?_, ?_⟩
      · exact (hrest.1).trans hstep.1
      · exact (hrest.2.1).trans hstep.2.1
      · intro hr
        exact hrest.2.2 (hstep.2.2 hr)
  · intro b row col r c
    rcases reveal_cell_cell_frame b row col r c with h | ⟨-, h1, h2⟩ | ⟨k, h1, h2⟩
    · rw [h]
    · rw [h1, h2]
      rfl
    · rw [h1, h2]
      rfl

/-- Witness for C10: the revealed mine cell stays revealed and a mine
through a flag and a reveal action. -/
theorem claim10_witness :
    revealedOf (((Board.new 3 3 [(1, 1)]).reveal_cell 1 1).grid 1 1) = true ∧
    revealedOf ((applyActions ((Board.new 3 3 [(1, 1)]).reveal_cell 1 1)
        [GameAction.flag 1 1, GameAction.reveal 2 2]).grid 1 1) = true :=
  ⟨by decide,
   (claim10.1 ((Board.new 3 3 [(1, 1)]).reveal_cell 1 1)
     [GameAction.flag 1 1, GameAction.reveal 2 2] 1 1).2.2 (by decide)⟩

/-! ## Characterization of a reveal call -/

theorem reveal_eq_id_mine_revealed {b : Board} {row col : Nat} {f : Bool}
    (hgo : b.game_over = false)
    (hcell : b.grid row col = CellState.Mine true f) :
    b.reveal_cell row col = b := by
  by_cases hb : in_bounds b.width b.height (row, col) = true
  · rw [reveal_eq_dfs hgo hb (fun f2 h => by rw [hcell] at h; cases h)]
    have hg : (reveal_cell_dfs b.width b.height b.grid row col ∅).1 = b.grid :=
      congrArg Prod.fst (dfs_eq_mine hb (Finset.not_mem_empty _) hcell)
    rw [hg]
  · exact reveal_eq_oob hb

theorem reveal_eq_id_clue_revealed {b : Board} {row col : Nat} {k : Nat}
    (hgo : b.game_over = false)
    (hcell : b.grid row col = CellState.Neighbours true k) :
    b.reveal_cell row col = b := by
  by_cases hb : in_bounds b.width b.height (row, col) = true
  · rw [reveal_eq_dfs hgo hb (fun f2 h => by rw [hcell] at h; cases h)]
    have hg : (reveal_cell_dfs b.width b.height b.grid row col ∅).1 = b.grid :=
      congrArg Prod.fst (dfs_eq_revealed hb (Finset.not_mem_empty _) hcell)
    rw [hg]
  · exact reveal_eq_oob hb

theorem reveal_eq_set_numbered {b : Board} {row col : Nat} {k : Nat}
    (hgo : b.game_over = false)
    (hb : in_bounds b.width b.height (row, col) = true)
    (hcell : b.grid row col = CellState.Neighbours false k) (hk : 0 < k) :
    b.reveal_cell row col
      = { b with grid := setCell b.grid row col (CellState.Neighbours true k) } := by
  rw [reveal_eq_dfs hgo hb (fun f2 h => by rw [hcell] at h; cases h)]
  have hg : (reveal_cell_dfs b.width b.height b.grid row col ∅).1
      = setCell b.grid row col (CellState.Neighbours true k) :=
    congrArg Prod.fst (dfs_eq_numbered hb (Finset.not_mem_empty _) hcell hk)
  rw [hg]

theorem dfs_char {width height : Nat} {g : Grid} {sr sc : Nat}
    (hb : in_bounds width height (sr, sc) = true)
    (hseed : g sr sc = CellState.Neighbours false 0) :
    ∀ r c,
      ((zeroReach width height g (sr, sc) (r, c) ∨
        (in_bounds width height (r, c) = true ∧
         (∃ rv k, g r c = CellState.Neighbours rv k) ∧
         ∃ z, zeroReach width height g (sr, sc) z ∧ adjDir z (r, c))) →
        (reveal_cell_dfs width height g sr sc ∅).1 r c = revealOne (g r c)) ∧
      (¬(zeroReach width height g (sr, sc) (r, c) ∨
        (in_bounds width height (r, c) = true ∧
         (∃ rv k, g r c = CellState.Neighbours rv k) ∧
         ∃ z, zeroReach width height g (sr, sc) z ∧ adjDir z (r, c))) →
        (reveal_cell_dfs width height g sr sc ∅).1 r c = g r c) := by
  have hseedZ : ZCell width height g (sr, sc) := ⟨hb, hseed⟩
  obtain ⟨⟨hA, hC, hD, hE⟩, hB⟩ := dfs_spec hseedZ (dfsMeasure width height ∅) g sr sc ∅
    (le_refl _) (fun r c => Or.inl rfl) (fun _ => Or.inl Relation.ReflTransGen.refl)
  have hproc : ∀ q, zeroReach width height g (sr, sc) q →
      q ∈ (reveal_cell_dfs width height g sr sc ∅).2.1 ∧
      (reveal_cell_dfs width height g sr sc ∅).1 q.1 q.2 = CellState.Neighbours true 0 ∧
      (∀ q2, adjDir q q2 → in_bounds width height q2 = true →
        q2 ∈ (reveal_cell_dfs width height g sr sc ∅).2.1) := by
    intro q hq
    induction hq with
    | refl =>
      have hmem := hB hb
      have hE0 := hE sr sc hmem (Finset.not_mem_empty _) 0 hseed
      exact ⟨hmem, hE0.1, fun q2 hadj hin2 => hE0.2 rfl q2 hadj hin2⟩
    | tail hz step ih =>
      rename_i z qq
      obtain ⟨qr, qc⟩ := qq
      obtain ⟨hzmem, hzrev, hznb⟩ := ih
      obtain ⟨hZz, hadj, hZq⟩ := step
      have hqmem := hznb (qr, qc) hadj hZq.1
      have hE1 := hE qr qc hqmem (Finset.not_mem_empty _) 0 hZq.2
      exact ⟨hqmem, hE1.1, fun q2 hadj2 hin2 => hE1.2 rfl q2 hadj2 hin2⟩
  intro r c
  constructor
  · intro hset
    rcases hset with hreach | ⟨hin, ⟨rv, k, hclue⟩, z, hz, hadj⟩
    · obtain ⟨-, hrev, -⟩ := hproc (r, c) hreach
      have hgz : g r c = CellState.Neighbours false 0 :=
        (zeroReach_ZCell hseedZ hreach).2
      rw [hgz]
      exact hrev
    · cases rv
      · obtain ⟨-, -, hznb⟩ := hproc z hz
        have hmem := hznb (r, c) hadj hin
        have hE1 := hE r c hmem (Finset.not_mem_empty _) k hclue
        rw [hclue]
        exact hE1.1
      · have hout := hC r c k hclue
        rw [hclue]
        exact hout
  · intro hnot
    by_contra hne
    rcases hA r c with he | ⟨hmem, hin, k, hg0, hout⟩
    · exact hne he
    · apply hnot
      have hchanged : (reveal_cell_dfs width height g sr sc ∅).1 r c ≠ g r c := by
        rw [hout, hg0]
        simp
      rcases hD r c hchanged with h | ⟨z, hz, hadj⟩
      · exact Or.inl h
      · exact Or.inr ⟨hin, ⟨false, k, hg0⟩, z, hz, hadj⟩

theorem reveal_zero_char {b : Board} {sr sc : Nat}
    (hgo : b.game_over = false)
    (hb : in_bounds b.width b.height (sr, sc) = true)
    (hseed : b.grid sr sc = CellState.Neighbours false 0) :
    ∀ r c,
      ((zeroReach b.width b.height b.grid (sr, sc) (r, c) ∨
        (in_bounds b.width b.height (r, c) = true ∧
         (∃ rv k, b.grid r c = CellState.Neighbours rv k) ∧
         ∃ z, zeroReach b.width b.height b.grid (sr, sc) z ∧ adjDir z (r, c))) →
        (b.reveal_cell sr sc).grid r c = revealOne (b.grid r c)) ∧
      (¬(zeroReach b.width b.height b.grid (sr, sc) (r, c) ∨
        (in_bounds b.width b.height (r, c) = true ∧
         (∃ rv k, b.grid r c = CellState.Neighbours rv k) ∧
         ∃ z, zeroReach b.width b.height b.grid (sr, sc) z ∧ adjDir z (r, c))) →
        (b.reveal_cell sr sc).grid r c = b.grid r c) := by
  rw [reveal_eq_dfs hgo hb (fun f2 h => by rw [hseed] at h; cases h)]
  exact dfs_char hb hseed

/-! ## The game-over invariant (C9) -/

theorem inv9_dfs_step (b : Board) (row col : Nat)
    (hgo : b.game_over = false)
    (hb : in_bounds b.width b.height (row, col) = true)
    (hnm : ∀ f, b.grid row col ≠ CellState.Mine false f)
    (hnomine : ∀ r c f, b.grid r c = CellState.Mine true f → False) :
    ((b.reveal_cell row col).game_over = true ↔
      ∃ r c f, (b.reveal_cell row col).grid r c = CellState.Mine true f) ∧
    (∀ r1 c1 r2 c2 f1 f2,
        (b.reveal_cell row col).grid r1 c1 = CellState.Mine true f1 →
        (b.reveal_cell row col).grid r2 c2 = CellState.Mine true f2 →
        r1 = r2 ∧ c1 = c2) ∧
    (∀ r c f, (b.reveal_cell row col).grid r c = CellState.Mine true f → f = false) := by
  rw [reveal_eq_dfs hgo hb hnm]
  have hframe := dfs_top_frame b.width b.height b.grid row col
  have hnomine' : ∀ r c f,
      (reveal_cell_dfs b.width b.height b.grid row col ∅).1 r c
        = CellState.Mine true f → False := by
    intro r c f hm
    rcases hframe r c with h | ⟨k, h1, h2⟩
    · rw [h] at hm
      exact hnomine r c f hm
    · rw [h2] at hm
      exact CellState.noConfusion hm
  refine ⟨?_, ?_, ?_⟩
  · constructor
    · intro h
      exact absurd (hgo.symm.trans h) (by decide)
    · rintro ⟨r, c, f, hm⟩
      exact absurd hm (fun h => hnomine' r c f h)
  · intro r1 c1 r2 c2 f1 f2 h1 h2
    exact absurd h1 (fun h => hnomine' r1 c1 f1 h)
  · intro r c f hm
    exact absurd hm (fun h => hnomine' r c f h)

theorem reachable_inv9 {b : Board} (hr : Reachable b) :
    (b.game_over = true ↔ ∃ r c f, b.grid r c = CellState.Mine true f) ∧
    (∀ r1 c1 r2 c2 f1 f2, b.grid r1 c1 = CellState.Mine true f1 →
        b.grid r2 c2 = CellState.Mine true f2 → r1 = r2 ∧ c1 = c2) ∧
    (∀ r c f, b.grid r c = CellState.Mine true f → f = false) := by
  induction hr with
  | new width height coords hw hh hnd hin =>
    have hcells := new_board_cells coords hnd hin
    have hnomine : ∀ r c f,
        (Board.new width height coords).grid r c = CellState.Mine true f → False := by
      intro r c f hm
      rcases hcells r c with h | ⟨k, h⟩
      · rw [h] at hm
        obtain ⟨hb2, -⟩ := CellState.Mine.inj hm
        exact Bool.noConfusion hb2
      · rw [h] at hm
        exact CellState.noConfusion hm
    refine ⟨?_, ?_, ?_⟩
    · constructor
      · intro h
        exact Bool.noConfusion h
      · rintro ⟨r, c, f, hm⟩
        exact absurd hm (fun h => hnomine r c f h)
    · intro r1 c1 r2 c2 f1 f2 h1 h2
      exact absurd h1 (fun h => hnomine r1 c1 f1 h)
    · intro r c f hm
      exact absurd hm (fun h => hnomine r c f h)
  | reveal b row col hrb ih =>
    obtain ⟨hiff, huniq, hfl⟩ := ih
    by_cases hgo : b.game_over = true
    · rw [reveal_eq_game_over hgo]
      exact ⟨hiff, huniq, hfl⟩
    · have hgo' : b.game_over = false := by
        cases h : b.game_over
        · rfl
        · exact absurd h hgo
      have hnomine : ∀ r c f, b.grid r c = CellState.Mine true f → False := by
        intro r c f hm
        exact hgo (hiff.2 ⟨r, c, f, hm⟩)
      by_cases hbnd : in_bounds b.width b.height (row, col) = true
      · rcases hcell : b.grid row col with ⟨a, f⟩ | ⟨rv, k⟩
        · cases a
          · cases f
            · rw [reveal_eq_mine_hit hgo' hbnd hcell]
              have hloc : ∀ r c f2,
                  setCell b.grid row col (CellState.Mine true false) r c
                    = CellState.Mine true f2 → r = row ∧ c = col ∧ f2 = false := by
                intro r c f2 hm
                by_cases hrc : r = row ∧ c = col
                · obtain ⟨rfl, rfl⟩ := hrc
                  rw [setCell_same] at hm
                  exact ⟨rfl, rfl, ((CellState.Mine.inj hm).2).symm⟩
                · rw [setCell_ne _ _ _ _ _ _ hrc] at hm
                  exact absurd hm (fun h => hnomine r c f2 h)
              refine ⟨?_, ?_, ?_⟩
              · constructor
                · intro _
                  exact ⟨row, col, false, setCell_same _ _ _ _⟩
                · intro _
                  rfl
              · intro r1 c1 r2 c2 f1 f2 h1 h2
                obtain ⟨hr1, hc1, -⟩ := hloc r1 c1 f1 h1
                obtain ⟨hr2, hc2, -⟩ := hloc r2 c2 f2 h2
                exact ⟨hr1.trans hr2.symm, hc1.trans hc2.symm⟩
              · intro r c f2 hm
                exact (hloc r c f2 hm).2.2
            · rw [reveal_eq_mine_flagged hgo' hbnd hcell]
              exact ⟨hiff, huniq, hfl⟩
          · exact inv9_dfs_step b row col hgo' hbnd
              (fun f2 h => by rw [hcell] at h; cases h) hnomine
        · exact inv9_dfs_step b row col hgo' hbnd
            (fun f2 h => by rw [hcell] at h; cases h) hnomine
      · rw [reveal_eq_oob hbnd]
        exact ⟨hiff, huniq, hfl⟩
  | flag b row col hrb ih =>
    obtain ⟨hiff, huniq, hfl⟩ := ih
    have hframe := flag_cell_cell_frame b row col
    have htrans : ∀ r c f, (b.flag_cell row col).grid r c = CellState.Mine true f →
        b.grid r c = CellState.Mine true f := by
      intro r c f hm
      rcases hframe r c with h | ⟨-, f2, h1, h2⟩
      · rw [h] at hm
        exact hm
      · rw [h2] at hm
        obtain ⟨hb2, -⟩ := CellState.Mine.inj hm
        exact Bool.noConfusion hb2
    have htrans' : ∀ r c f, b.grid r c = CellState.Mine true f →
        (b.flag_cell row col).grid r c = CellState.Mine true f := by
      intro r c f hm
      rcases hframe r c with h | ⟨-, f2, h1, h2⟩
      · rw [h]
        exact hm
      · rw [hm] at h1
        obtain ⟨hb2, -⟩ := CellState.Mine.inj h1
        exact Bool.noConfusion hb2
    refine ⟨?_, ?_, ?_⟩
    · rw [flag_cell_game_over]
      constructor
      · intro h
        obtain ⟨r, c, f, hm⟩ := hiff.1 h
        exact ⟨r, c, f, htrans' r c f hm⟩
      · rintro ⟨r, c, f, hm⟩
        exact hiff.2 ⟨r, c, f, htrans r c f hm⟩
    · intro r1 c1 r2 c2 f1 f2 h1 h2
      exact huniq r1 c1 r2 c2 f1 f2 (htrans r1 c1 f1 h1) (htrans r2 c2 f2 h2)
    · intro r c f hm
      exact hfl r c f (htrans r c f hm)

/-- C9: in every reachable board, `game_over` holds exactly when some mine
is revealed, at most one mine cell is revealed, and a revealed mine is
never flagged. -/
theorem claim9 (b : Board) (hr : Reachable b) :
    (b.game_over = true ↔ ∃ r c f, b.grid r c = CellState.Mine true f) ∧
    (∀ r1 c1 r2 c2 f1 f2, b.grid r1 c1 = CellState.Mine true f1 →
        b.grid r2 c2 = CellState.Mine true f2 → r1 = r2 ∧ c1 = c2) ∧
    (∀ r c f, b.grid r c = CellState.Mine true f → f = false) :=
  reachable_inv9 hr

/-- Witness for C9: the freshly constructed 2×2 board with one mine, after
revealing the mine. -/
theorem claim9_witness :
    Reachable ((Board.new 2 2 [(0, 0)]).reveal_cell 0 0) ∧
    (((Board.new 2 2 [(0, 0)]).reveal_cell 0 0).game_over = true ↔
      ∃ r c f, ((Board.new 2 2 [(0, 0)]).reveal_cell 0 0).grid r c
        = CellState.Mine true f) :=
  have hreach : Reachable ((Board.new 2 2 [(0, 0)]).reveal_cell 0 0) :=
    Reachable.reveal _ 0 0
      (Reachable.new 2 2 [(0, 0)] (by decide) (by decide) (by decide)
        (by intro p hp; simp at hp; simp [hp]))
  ⟨hreach, (claim9 _ hreach).1⟩

/-! ## The region invariant (for C1) -/

theorem invR_new {width height : Nat} (coords : List (Nat × Nat))
    (hnd : coords.Nodup) (hin : ∀ p ∈ coords, p.1 < width ∧ p.2 < height) :
    InvR (Board.new width height coords) := by
  intro r c _ h0
  rcases new_board_cells coords hnd hin r c with h | ⟨k, h⟩
  · rw [h] at h0
    exact CellState.noConfusion h0
  · rw [h] at h0
    obtain ⟨hb2, -⟩ := CellState.Neighbours.inj h0
    exact Bool.noConfusion hb2

theorem invR_flag (b : Board) (row col : Nat) (hInv : InvR b) :
    InvR (b.flag_cell row col) := by
  intro r c hin2 h0 q hadj hinq rv k hq
  have hw := (dims_frame b row col).2.2.1
  have hh := (dims_frame b row col).2.2.2
  rw [hw, hh] at hin2 hinq
  have h0' : b.grid r c = CellState.Neighbours true 0 := by
    rcases flag_cell_cell_frame b row col r c with h | ⟨-, f, h1, h2⟩
    · rw [← h]
      exact h0
    · rw [h2] at h0
      exact CellState.noConfusion h0
  have hq' : b.grid q.1 q.2 = CellState.Neighbours rv k := by
    rcases flag_cell_cell_frame b row col q.1 q.2 with h | ⟨-, f, h1, h2⟩
    · rw [← h]
      exact hq
    · rw [h2] at hq
      exact CellState.noConfusion hq
  exact hInv r c hin2 h0' q hadj hinq rv k hq'

theorem invR_reveal (b : Board) (row col : Nat) (hInv : InvR b) :
    InvR (b.reveal_cell row col) := by
  by_cases hgo : b.game_over = true
  · rw [reveal_eq_game_over hgo]
    exact hInv
  · have hgo' : b.game_over = false := by
      cases h : b.game_over
      · rfl
      · exact absurd h hgo
    by_cases hbnd : in_bounds b.width b.height (row, col) = true
    · rcases hcell : b.grid row col with ⟨a, f⟩ | ⟨rv0, k0⟩
      · cases a
        · cases f
          · rw [reveal_eq_mine_hit hgo' hbnd hcell]
            intro r c hin2 h0 q hadj hinq rv k hq
            dsimp only at hin2 h0 hinq hq
            have h0' : b.grid r c = CellState.Neighbours true 0 := by
              by_cases hrc : r = row ∧ c = col
              · obtain ⟨rfl, rfl⟩ := hrc
                rw [setCell_same] at h0
                exact CellState.noConfusion h0
              · rw [setCell_ne _ _ _ _ _ _ hrc] at h0
                exact h0
            have hq' : b.grid q.1 q.2 = CellState.Neighbours rv k := by
              by_cases hrc : q.1 = row ∧ q.2 = col
              · obtain ⟨h1, h2⟩ := hrc
                rw [h1, h2, setCell_same] at hq
                exact CellState.noConfusion hq
              · rw [setCell_ne _ _ _ _ _ _ hrc] at hq
                exact hq
            exact hInv r c hin2 h0' q hadj hinq rv k hq'
          · rw [reveal_eq_mine_flagged hgo' hbnd hcell]
            exact hInv
        · rw [reveal_eq_id_mine_revealed hgo' hcell]
          exact hInv
      · cases rv0
        · by_cases hk : 0 < k0
          · rw [reveal_eq_set_numbered hgo' hbnd hcell hk]
            intro r c hin2 h0 q hadj hinq rv k hq
            dsimp only at hin2 h0 hinq hq
            have h0' : b.grid r c = CellState.Neighbours true 0 := by
              by_cases hrc : r = row ∧ c = col
              · obtain ⟨rfl, rfl⟩ := hrc
                rw [setCell_same] at h0
                obtain ⟨-, hk0⟩ := CellState.Neighbours.inj h0
                omega
              · rw [setCell_ne _ _ _ _ _ _ hrc] at h0
                exact h0
            by_cases hrcq : q.1 = row ∧ q.2 = col
            · obtain ⟨h1, h2⟩ := hrcq
              rw [h1, h2, setCell_same] at hq
              exact ((CellState.Neighbours.inj hq).1).symm
            · rw [setCell_ne _ _ _ _ _ _ hrcq] at hq
              exact hInv r c hin2 h0' q hadj hinq rv k hq
          · have hk0 : k0 = 0 := by omega
            subst hk0
            have hchar := reveal_zero_char hgo' hbnd hcell
            have hseedZ : ZCell b.width b.height b.grid (row, col) := ⟨hbnd, hcell⟩
            intro r c hin2 h0 q hadj hinq rv k hq
            have hwd := (dims_frame b row col).1
            have hhd := (dims_frame b row col).2.1
            rw [hwd, hhd] at hin2 hinq
            by_cases hqS : (zeroReach b.width b.height b.grid (row, col) (q.1, q.2) ∨
                (in_bounds b.width b.height (q.1, q.2) = true ∧
                 (∃ rv2 k2, b.grid q.1 q.2 = CellState.Neighbours rv2 k2) ∧
                 ∃ z, zeroReach b.width b.height b.grid (row, col) z ∧ adjDir z (q.1, q.2)))
            · have hqval := (hchar q.1 q.2).1 hqS
              rw [hqval] at hq
              rcases hbgq : b.grid q.1 q.2 with ⟨a2, f2⟩ | ⟨rv2, k2⟩
              · rw [hbgq] at hq
                exact CellState.noConfusion hq
              · rw [hbgq] at hq
                exact ((CellState.Neighbours.inj hq).1).symm
            · have hqval := (hchar q.1 q.2).2 hqS
              rw [hqval] at hq
              by_cases hrcS : (zeroReach b.width b.height b.grid (row, col) (r, c) ∨
                  (in_bounds b.width b.height (r, c) = true ∧
                   (∃ rv2 k2, b.grid r c = CellState.Neighbours rv2 k2) ∧
                   ∃ z, zeroReach b.width b.height b.grid (row, col) z ∧ adjDir z (r, c)))
              · have hrcval := (hchar r c).1 hrcS
                rw [hrcval] at h0
                rcases hbg : b.grid r c with ⟨a2, f2⟩ | ⟨rv2, k2⟩
                · rw [hbg] at h0
                  exact CellState.noConfusion h0
                · rw [hbg] at h0
                  obtain ⟨-, hk2⟩ := CellState.Neighbours.inj h0
                  subst hk2
                  cases rv2
                  · exfalso
                    have hZrc : ZCell b.width b.height b.grid (r, c) := ⟨hin2, hbg⟩
                    have hreachrc : zeroReach b.width b.height b.grid (row, col) (r, c) := by
                      rcases hrcS with h | ⟨-, -, z, hz, hadjz⟩
                      · exact h
                      · exact Relation.ReflTransGen.tail hz
                          ⟨zeroReach_ZCell hseedZ hz, hadjz, hZrc⟩
                    exact hqS (Or.inr ⟨hinq, ⟨rv, k, hq⟩, (r, c), hreachrc, hadj⟩)
                  · exact hInv r c hin2 hbg q hadj hinq rv k hq
              · have hrcval := (hchar r c).2 hrcS
                rw [hrcval] at h0
                exact hInv r c hin2 h0 q hadj hinq rv k hq
        · rw [reveal_eq_id_clue_revealed hgo' hcell]
          exact hInv
    · rw [reveal_eq_oob hbnd]
      exact hInv

theorem reachable_invR {b : Board} (hr : Reachable b) : InvR b := by
  induction hr with
  | new width height coords hw hh hnd hin => exact invR_new coords hnd hin
  | reveal b row col hrb ih => exact invR_reveal b row col ih
  | flag b row col hrb ih => exact invR_flag b row col ih

theorem zeroRegion_in_bounds {b : Board} {sr sc : Nat}
    (hb : in_bounds b.width b.height (sr, sc) = true) :
    ∀ q, zeroRegion b (sr, sc) q → in_bounds b.width b.height q = true := by
  intro q h
  induction h with
  | refl => exact hb
  | tail _ step _ => exact step.2.2.1

theorem zeroRegion_eq_reach {b : Board} (hInv : InvR b) {sr sc : Nat}
    (hbnd : in_bounds b.width b.height (sr, sc) = true)
    (hseed : b.grid sr sc = CellState.Neighbours false 0) :
    ∀ q, zeroRegion b (sr, sc) q ↔ zeroReach b.width b.height b.grid (sr, sc) q := by
  intro q
  constructor
  · intro h
    induction h with
    | refl => exact Relation.ReflTransGen.refl
    | tail hz step ih =>
      rename_i z qq
      obtain ⟨hZz, hadj, hZq⟩ := step
      obtain ⟨hinq, rvq, hgq⟩ := hZq
      cases rvq
      · exact Relation.ReflTransGen.tail ih
          ⟨zeroReach_ZCell ⟨hbnd, hseed⟩ ih, hadj, ⟨hinq, hgq⟩⟩
      · exfalso
        have hzZ := zeroReach_ZCell ⟨hbnd, hseed⟩ ih
        have := hInv qq.1 qq.2 hinq hgq z (adjDir_symm hadj) hzZ.1 false 0 hzZ.2
        exact Bool.noConfusion this
  · intro h
    induction h with
    | refl => exact Relation.ReflTransGen.refl
    | tail hz step ih =>
      obtain ⟨hZz, hadj, hZq⟩ := step
      exact Relation.ReflTransGen.tail ih
        ⟨⟨hZz.1, false, hZz.2⟩, hadj, ⟨hZq.1, false, hZq.2⟩⟩

theorem region_revealed {b : Board} (hInv : InvR b) {sr sc : Nat}
    (hbnd : in_bounds b.width b.height (sr, sc) = true)
    (hseed : b.grid sr sc = CellState.Neighbours true 0) :
    ∀ q, zeroRegion b (sr, sc) q → b.grid q.1 q.2 = CellState.Neighbours true 0 := by
  intro q h
  induction h with
  | refl => exact hseed
  | tail hz step ih =>
    rename_i z qq
    obtain ⟨hZz, hadj, hZq⟩ := step
    obtain ⟨hinq, rvq, hgq⟩ := hZq
    have hrvq := hInv z.1 z.2 hZz.1 ih qq hadj hinq rvq 0 hgq
    rw [hrvq] at hgq
    exact hgq

/-- C1: on a reachable board with `game_over = false`, revealing an
in-bounds zero-count clue cell sets `revealed := true` on exactly the
connected zero-count region of that cell together with its clue border
(every cell in `regionBorder` gets its `revealed` flag set and nothing else
about it changes), every cell outside that set is completely unchanged, and
no mine cell's `revealed` or `flagged` field changes. -/
theorem claim1 (b : Board) (sr sc : Nat) (hr : Reachable b)
    (hgo : b.game_over = false)
    (hb : in_bounds b.width b.height (sr, sc) = true)
    (rv : Bool) (hseed : b.grid sr sc = CellState.Neighbours rv 0) :
    (∀ r c,
      (regionBorder b (sr, sc) (r, c) →
        (b.reveal_cell sr sc).grid r c = revealOne (b.grid r c)) ∧
      (¬ regionBorder b (sr, sc) (r, c) →
        (b.reveal_cell sr sc).grid r c = b.grid r c)) ∧
    (∀ r c mr mf, b.grid r c = CellState.Mine mr mf →
        (b.reveal_cell sr sc).grid r c = CellState.Mine mr mf) := by
  have hInv := reachable_invR hr
  cases rv
  · have hiff := zeroRegion_eq_reach hInv hb hseed
    have hchar := reveal_zero_char hgo hb hseed
    have hsets : ∀ r c, regionBorder b (sr, sc) (r, c) ↔
        (zeroReach b.width b.height b.grid (sr, sc) (r, c) ∨
         (in_bounds b.width b.height (r, c) = true ∧
          (∃ rv2 k, b.grid r c = CellState.Neighbours rv2 k) ∧
          ∃ z, zeroReach b.width b.height b.grid (sr, sc) z ∧ adjDir z (r, c))) := by
      intro r c
      rw [regionBorder]
      constructor
      · rintro (h | ⟨h1, h2, z, hz, hadj⟩)
        · exact Or.inl ((hiff (r, c)).1 h)
        · exact Or.inr ⟨h1, h2, z, (hiff z).1 hz, hadj⟩
      · rintro (h | ⟨h1, h2, z, hz, hadj⟩)
        · exact Or.inl ((hiff (r, c)).2 h)
        · exact Or.inr ⟨h1, h2, z, (hiff z).2 hz, hadj⟩
    constructor
    · intro r c
      constructor
      · intro hset
        exact (hchar r c).1 ((hsets r c).1 hset)
      · intro hset
        exact (hchar r c).2 (fun h => hset ((hsets r c).2 h))
    · intro r c mr mf hm
      have hnset : ¬(zeroReach b.width b.height b.grid (sr, sc) (r, c) ∨
          (in_bounds b.width b.height (r, c) = true ∧
           (∃ rv2 k, b.grid r c = CellState.Neighbours rv2 k) ∧
           ∃ z, zeroReach b.width b.height b.grid (sr, sc) z ∧ adjDir z (r, c))) := by
        rintro (h | ⟨-, ⟨rv2, k, hclue⟩, -⟩)
        · have hz := (zeroReach_ZCell ⟨hb, hseed⟩ h).2
          rw [hm] at hz
          exact CellState.noConfusion hz
        · rw [hm] at hclue
          exact CellState.noConfusion hclue
      rw [(hchar r c).2 hnset]
      exact hm
  · have hid := reveal_eq_id_clue_revealed hgo hseed
    rw [hid]
    refine ⟨?_, ?_⟩
    · intro r c
      refine ⟨?_, fun _ => rfl⟩
      intro hset
      rcases hset with h | ⟨hin2, ⟨rv2, k2, hclue⟩, z, hz, hadj⟩
      · have hval := region_revealed hInv hb hseed (r, c) h
        rw [hval]
        rfl
      · have hztrue := region_revealed hInv hb hseed z hz
        have hinz := zeroRegion_in_bounds hb z hz
        have hrv2 := hInv z.1 z.2 hinz hztrue (r, c) hadj hin2 rv2 k2 hclue
        rw [hclue, hrv2]
        rfl
    · intro r c mr mf hm
      exact hm

/-- Witness for C1: the fresh 3×3 board with one mine at column 2, row 2;
the corner (0, 0) is an unrevealed zero-count clue cell. -/
theorem claim1_witness :
    (Reachable (Board.new 3 3 [(2, 2)]) ∧
     (Board.new 3 3 [(2, 2)]).game_over = false ∧
     in_bounds (Board.new 3 3 [(2, 2)]).width (Board.new 3 3 [(2, 2)]).height
       (0, 0) = true ∧
     (Board.new 3 3 [(2, 2)]).grid 0 0 = CellState.Neighbours false 0) ∧
    (∀ r c mr mf, (Board.new 3 3 [(2, 2)]).grid r c = CellState.Mine mr mf →
        ((Board.new 3 3 [(2, 2)]).reveal_cell 0 0).grid r c
          = CellState.Mine mr mf) :=
  have hreach : Reachable (Board.new 3 3 [(2, 2)]) :=
    Reachable.new 3 3 [(2, 2)] (by decide) (by decide) (by decide)
      (by intro p hp; simp at hp; simp [hp])
  ⟨⟨hreach, rfl, by decide, by decide⟩,
   (claim1 (Board.new 3 3 [(2, 2)]) 0 0 hreach rfl (by decide) false (by decide)).2⟩
